import Mathlib

/-!
# Verification of the primecount combinatorial prime-counting engine

Shallow embedding of the repository's core components and proofs of the
specified properties: the segmented bit sieve with adaptive counters and its
batched `count` queries, the hard-special-leaves loop of `pi_lmo5.cpp`, the
`P2`/`B` kernels with their sequential stitching fold, the `balanceLoad`
thread-distance rule, the backup/resume header check, and the command-line
option parser.
-/

namespace Primecount

/-! ### Bit-range popcount helpers -/

/-- Number of set bits of `bits` at positions `a ≤ i ≤ b` (inclusive
brute-force popcount over a range). -/
def countRange (bits : Nat → Bool) (a b : Nat) : Nat :=
  ((Finset.Ico a (b + 1)).filter (fun i => bits i = true)).card

/-- Number of set bits of `bits` at positions `i < n`. -/
def popcountBelow (bits : Nat → Bool) (n : Nat) : Nat :=
  ((Finset.range n).filter (fun i => bits i = true)).card

/-- Number of set bits of `bits` at positions `a ≤ i < b` (half-open
variant used to state the counting lemmas). -/
def countIco (bits : Nat → Bool) (a b : Nat) : Nat :=
  ((Finset.Ico a b).filter (fun i => bits i = true)).card

/-! ### The Sieve with adaptive counters

The sieve covers the segment `[low, low + sieve_size)`; bit `i` corresponds
to the integer `low + i` and is `true` while that integer is uncrossed.
The mutable fields mirror the members of the `Sieve` class as described in
the repository's special-leaves document: `total_count`, the `counters`
array over buckets of `2 ^ counters_dist_log2` consecutive offsets, and the
batched-counting cursor `prev_stop`, `counters_i`, `counters_count`,
`counters_stop`, `count_`. -/
structure Sieve where
  low : Nat
  sieve_size : Nat
  bits : Nat → Bool
  total_count : Nat
  counters : Nat → Nat
  counters_size : Nat
  counters_dist_log2 : Nat
  prev_stop : Nat
  counters_i : Nat
  counters_count : Nat
  counters_stop : Nat
  count_ : Nat

/-- `counters_dist_`, always the power of two `2 ^ counters_dist_log2_`. -/
def Sieve.counters_dist (s : Sieve) : Nat := 2 ^ s.counters_dist_log2

/-- `get_total_count()`: the current number of unsieved elements. -/
def Sieve.get_total_count (s : Sieve) : Nat := s.total_count

/-- The `while (counters_stop_ <= stop)` loop of `Sieve::count` (special
leaves document, lines 157-163): consume whole counter buckets until the
remaining distance to `stop` is smaller than one bucket.  Returns the
updated `(counters_i, counters_count, counters_stop, start, count_)`. -/
def countBuckets (counters : Nat → Nat) (k stop i sum cstop start cnt : Nat) :
    Nat × Nat × Nat × Nat × Nat :=
  if cstop ≤ stop then
    countBuckets counters k stop (i + 1) (sum + counters i) (cstop + 2 ^ k)
      cstop (sum + counters i)
  else
    (i, sum, cstop, start, cnt)
termination_by stop + 1 - cstop
decreasing_by
  have h2 : 0 < 2 ^ k := Nat.pos_pow_of_pos k (by decide)
  omega

/-- `Sieve::count(stop)` (special leaves document, lines 144-171): count the
set bits inside `[0, stop]`, consuming whole counter buckets first and then
popcounting the remaining below-one-bucket distance linearly, cumulative
with the previous query (`start = prev_stop_ + 1`). -/
def Sieve.count (s : Sieve) (stop : Nat) : Sieve × Nat :=
  match countBuckets s.counters s.counters_dist_log2 stop
      s.counters_i s.counters_count s.counters_stop (s.prev_stop + 1) s.count_ with
  | (i, sum, cstop, start, cnt0) =>
    let cnt := cnt0 + countRange s.bits start stop
    ({ s with prev_stop := stop, counters_i := i, counters_count := sum,
              counters_stop := cstop, count_ := cnt }, cnt)

/-- One cross-off step (special leaves document, lines 127-132): clear the
bit of offset `i` and, exactly when it was still set, decrement
`total_count` and the one counter owning bucket `i >> counters_dist_log2`. -/
def Sieve.cross_off_bit (s : Sieve) (i : Nat) : Sieve :=
  let is_bit : Nat := if s.bits i then 1 else 0
  { s with
    total_count := s.total_count - is_bit
    counters := fun j =>
      if j = i >>> s.counters_dist_log2 then s.counters j - is_bit else s.counters j
    bits := fun j => if j = i then false else s.bits j }

/-- Offsets (relative to `low`) of the odd multiples of `p` inside the
segment `[low, low + size)`. -/
def oddMultiples (p low size : Nat) : List Nat :=
  (List.range size).filter (fun i => (low + i) % p == 0 && (low + i) % 2 == 1)

/-- Modelled from the spec: `Sieve.cpp` is not among the source files.  §4.2
describes `cross_off_count(p, b)` as clearing, for every odd multiple
`m ∈ [low, high)` of `p` whose bit is still set, that bit while decrementing
`total_count` and the owning counter entry (the per-bit update is the code
shown in the special-leaves document).  The batched-counting cursor is
re-initialized afterwards: the callers (`pi_lmo5.cpp` lines 92-101 and
120-127) restart the `count()` stop values from the low end of the segment
after every `cross_off_count`, which the cumulative cursor of `count()`
only supports from a freshly initialized cursor. -/
def Sieve.cross_off_count (s : Sieve) (p : Nat) : Sieve :=
  let s' := (oddMultiples p s.low s.sieve_size).foldl Sieve.cross_off_bit s
  { s' with prev_stop := 0, counters_i := 0, counters_count := 0,
            counters_stop := 2 ^ s'.counters_dist_log2, count_ := 0 }

/-- The bit array produced by pre-sieving `[low, low + size)`: all odd
integers of the segment are set, minus the multiples of the wheel primes
`primes[1..c]`. -/
def preSieveBits (primes : List Nat) (c low size : Nat) : Nat → Bool :=
  fun i => decide (i < size ∧ (low + i) % 2 = 1 ∧
    ∀ j, j ≤ c → 1 ≤ j → ¬ (primes.getD j 0 ∣ (low + i)))

/-- Modelled from the spec: `Sieve.cpp` is not among the source files.  §4.2
describes `pre_sieve(primes, c, low, high)` as setting all odd positions in
`[low, high)` to 1, crossing off the multiples of `primes[1..c]` with the
rotating wheel, and initializing `counters[]`, `total_count` and the
counting cursor.  The counter distance `2 ^ k` is kept as a parameter (the
source selects `nearest_power_of_2(sqrt(sqrt(segment_low)))`), and
`counters_size = sieve_size / counters_dist + 1` with each counter holding
the number of set bits of its bucket, per `Sieve::allocate_counters` in the
special-leaves document. -/
def Sieve.pre_sieve (primes : List Nat) (c low size k : Nat) : Sieve :=
  let bits := preSieveBits primes c low size
  { low := low
    sieve_size := size
    bits := bits
    total_count := popcountBelow bits size
    counters := fun j => countRange bits (j * 2 ^ k) ((j + 1) * 2 ^ k - 1)
    counters_size := size / 2 ^ k + 1
    counters_dist_log2 := k
    prev_stop := 0
    counters_i := 0
    counters_count := 0
    counters_stop := 2 ^ k
    count_ := 0 }

/-! ### Operation sequences on one sieve segment -/

/-- One operation on a sieve segment: a `cross_off_count` of a sieving prime
or a `count` query. -/
inductive SieveOp where
  | cross (p : Nat)
  | query (stop : Nat)
deriving DecidableEq, Repr

/-- Run a list of operations on the sieve, collecting the value returned by
each `count` query. -/
def Sieve.run : Sieve → List SieveOp → Sieve × List Nat
  | s, [] => (s, [])
  | s, SieveOp.cross p :: ops => Sieve.run (s.cross_off_count p) ops
  | s, SieveOp.query stop :: ops =>
      match s.count stop with
      | (s', v) =>
        match Sieve.run s' ops with
        | (s'', vs) => (s'', v :: vs)

/-- Reference semantics of `cross_off_count` on the raw bit array alone:
clear the bits of the odd multiples of `p` inside the segment. -/
def specCross (low size p : Nat) (bits : Nat → Bool) : Nat → Bool :=
  fun i => if i < size ∧ (low + i) % p = 0 ∧ (low + i) % 2 = 1 then false else bits i

/-- Reference semantics of an operation sequence: each `count stop` query
answers the brute-force popcount of the bit array up to and including the
bit for `stop`. -/
def specRun (low size : Nat) : (Nat → Bool) → List SieveOp → List Nat
  | _, [] => []
  | bits, SieveOp.cross p :: ops => specRun low size (specCross low size p bits) ops
  | bits, SieveOp.query stop :: ops => countRange bits 0 stop :: specRun low size bits ops

/-- The `count` stop arguments of an operation sequence, in order. -/
def stopsOf (ops : List SieveOp) : List Nat :=
  ops.filterMap (fun op => match op with
    | SieveOp.query stop => some stop
    | SieveOp.cross _ => none)

/-! ### Prime counting and arithmetic helpers -/

/-- `PrimePi(n)`: the number of primes `≤ n`.  Used to model the external
primesieve iterators and lookup tables. -/
def primePi (n : Nat) : Nat := ((Finset.range (n + 1)).filter Nat.Prime).card

/-- The primes inside `[a, b]`, in increasing order. -/
def primesBetween (a b : Nat) : List Nat :=
  (List.range' a (b + 1 - a)).filter Nat.Prime

/-- Modelled from the spec: `generate_primes(y)` (generate.hpp is not among
the sources) returns the strictly increasing primes `≤ y` with the sentinel
`primes[0] = 0` (§3 of the spec). -/
def primesUpTo (y : Nat) : List Nat := 0 :: primesBetween 2 y

/-- Modelled from the spec: `generate_lpf(y)` is not among the sources;
`lpf[m]` is the smallest prime dividing `m`, or `m` itself for primes
(§3 of the spec). -/
def lpf (n : Nat) : Nat := n.minFac

/-- Modelled from the spec: `generate_moebius(y)` is not among the sources;
`μ[m] ∈ {-1, 0, 1}` is the Möbius function (§3 of the spec): `0` unless `m`
is squarefree (no repeated prime factor), otherwise `(-1)` to the number of
prime factors. -/
def mu (n : Nat) : Int :=
  if ∀ d, d ≤ n → 1 < d → ¬ (d * d ∣ n) then
    (-1) ^ ((Finset.range (n + 1)).filter (fun p => Nat.Prime p ∧ p ∣ n)).card
  else 0

/-- Modelled from the spec: `phi(x, a)` (phi.cpp is not among the sources)
counts the integers `≤ x` whose smallest prime factor exceeds the `a`-th
prime (glossary of the spec); `1`, having no prime factor at all, is a
survivor.  Stated via prime indices: every prime factor `p` of a surviving
`n` has `primePi p > a`. -/
def phi_spec (x a : Nat) : Nat :=
  ((Finset.Icc 1 x).filter
    (fun n => ∀ p, p ≤ n → p ∣ n → Nat.Prime p → a < primePi p)).card

/-- `pi_simple` from pi_legendre.cpp lines 57-67: internal Legendre-formula
prime counter, `phi(x, a) + a - 1` with `a = pi_simple(isqrt(x))`. -/
def pi_simple (x : Nat) : Nat :=
  if x < 2 then 0
  else
    let a := pi_simple (Nat.sqrt x)
    phi_spec x a + a - 1
termination_by x
decreasing_by exact Nat.sqrt_lt_self (by omega)

/-- `pi_legendre` from pi_legendre.cpp lines 32-51: Legendre's formula
`pi(x) = phi(x, a) + a - 1` with `a = pi(x^(1/2))`. -/
def pi_legendre (x : Nat) : Nat :=
  if x < 2 then 0
  else
    let a := pi_simple (Nat.sqrt x)
    phi_spec x a + a - 1

/-! ### The P2 / B kernels -/

/-- Models the forward primesieve iterator of `P2_thread`/`B_thread`
together with `count_primes` (B.cpp lines 164-176): the iterator state is
the bound `L` up to which primes have already been consumed, and a call
returns the number of primes inside `(L, stop]` and the advanced bound. -/
def count_primes (L stop : Nat) : Nat × Nat :=
  (primePi stop - primePi L, max L stop)

/-- The body of the descending-prime loop shared by `P2_thread` (part_002
lines 313-319) and `B_thread` (B.cpp lines 207-213): for the current sieving
prime `p`, count the primes up to `x / p`, accumulate them into `pix`, add
`pix` to the local sum and count the iteration.  The accumulator is
`(sum, pix, iters, L)`. -/
def threadStep (x : Nat) (acc : Nat × Nat × Nat × Nat) (p : Nat) :
    Nat × Nat × Nat × Nat :=
  match acc with
  | (sum, pix, iters, L) =>
    let xp := x / p
    match count_primes L xp with
    | (cnt, L') => (sum + (pix + cnt), pix + cnt, iters + 1, L')

/-- `B_thread` from B.cpp lines 178-220: over its interval
`[low + thread_dist * thread_num, low + thread_dist * (thread_num + 1)) ∩ [_, z)`,
sum `PrimePi(x / prime) - PrimePi(thread_low - 1)` over the sieving primes
of the window, and count the window primes into `pix`.  Returns
`(sum, pix, iters)`. -/
def B_thread (x y z low thread_num thread_dist : Nat) : Nat × Nat × Nat :=
  let low' := low + thread_dist * thread_num
  if low' < z then
    let z' := min (low' + thread_dist) z
    let sqrtx := Nat.sqrt x
    let xz := min (x / z') sqrtx
    let stop := min (x / low') sqrtx
    let start := max xz y
    match ((primesBetween (start + 1) stop).reverse).foldl (threadStep x)
        (0, 0, 0, low' - 1) with
    | (sum, pix, iters, L) =>
      match count_primes L (z' - 1) with
      | (cnt, _) => (sum, pix + cnt, iters)
  else (0, 0, 0)

/-- `P2_thread` from part_002 lines 286-326 (the LoadBalancerP2 version):
identical to `B_thread` except that the lower prime bound is
`start = max(x / z', y)` without the `isqrt(x)` cap. -/
def P2_thread (x y z low thread_num thread_dist : Nat) : Nat × Nat × Nat :=
  let low' := low + thread_dist * thread_num
  if low' < z then
    let z' := min (low' + thread_dist) z
    let start := max (x / z') y
    let stop := min (x / low') (Nat.sqrt x)
    match ((primesBetween (start + 1) stop).reverse).foldl (threadStep x)
        (0, 0, 0, low' - 1) with
    | (sum, pix, iters, L) =>
      match count_primes L (z' - 1) with
      | (cnt, _) => (sum, pix + cnt, iters)
  else (0, 0, 0)

/-- The sequential stitching fold of `P2_OpenMP` (part_002 lines 374-380)
and `B_OpenMP` (B.cpp lines 267-273): in thread order, add
`pi_low_minus_1 * iters` to each thread result and accumulate `pix` into
`pi_low_minus_1`. -/
def batchFold (res : List (Nat × Nat × Nat)) (sum pi_low_minus_1 : Nat) :
    Nat × Nat :=
  res.foldl (fun acc r => (acc.1 + (r.1 + acc.2 * r.2.2), acc.2 + r.2.1))
    (sum, pi_low_minus_1)

/-- The `while (low < z)` batch loop shared by `P2_OpenMP` and `B_OpenMP`:
each batch runs `T` threads of sieving distance `dist` on `[low, low + dist * T)`,
folds their results sequentially, and advances `low`.  The per-batch
`(dist, T)` pairs come from the load balancer and are kept as an explicit
schedule.  Returns the final `(low, sum, pi_low_minus_1)`. -/
def kernelRun (z : Nat) (thread : Nat → Nat → Nat → Nat × Nat × Nat) :
    List (Nat × Nat) → Nat → Nat → Nat → Nat × Nat × Nat
  | [], low, sum, pi_lm1 => (low, sum, pi_lm1)
  | (dist, T) :: sched, low, sum, pi_lm1 =>
    if low < z then
      match batchFold ((List.range T).map (fun i => thread low i dist)) sum pi_lm1 with
      | (sum', pi') => kernelRun z thread sched (low + dist * T) sum' pi'
    else (low, sum, pi_lm1)

/-- `B_OpenMP` from B.cpp lines 226-293 (without backup/resume): the early
return for `x < 4`, then the batch loop starting at `low = isqrt(x)` with
`pi_low_minus_1 = pi_simple(low - 1)`.  Returns the accumulated sum. -/
def B_OpenMP (x y : Nat) (sched : List (Nat × Nat)) : Nat :=
  if x < 4 then 0
  else
    let z := x / max y 1
    let low := Nat.sqrt x
    let pi_low_minus_1 := pi_simple (low - 1)
    (kernelRun z (B_thread x y z) sched low 0 pi_low_minus_1).2.1

/-- `P2_OpenMP` from part_002 lines 332-393 (the LoadBalancerP2 version):
the early returns for `x < 4` and `pi(y) ≥ pi(isqrt(x))`, the combinatorial
correction `Σ -(i-1)`, then the batch loop starting at `low = 2` with
`pi_low_minus_1 = 0`. -/
def P2_OpenMP (x y : Nat) (sched : List (Nat × Nat)) : Int :=
  if x < 4 then 0
  else
    let a := pi_simple y
    let b := pi_simple (Nat.sqrt x)
    if a ≥ b then 0
    else
      let sum0 : Int := ((a : Int) - 2) * ((a : Int) + 1) / 2 -
        ((b : Int) - 2) * ((b : Int) + 1) / 2
      let z := x / max y 1
      sum0 + ((kernelRun z (P2_thread x y z) sched 2 0 0).2.1 : Int)

/-! ### The hard special leaves computation of pi_lmo5.cpp -/

/-- The descending enumeration `for (m = max_m; m > min_m; m--)` of the
square-free-leaf loop. -/
def descRange (min_m max_m : Nat) : List Nat :=
  (List.range' (min_m + 1) (max_m - min_m)).reverse

/-- The inner square-free-leaf loop of `S2` (pi_lmo5.cpp lines 92-101): for
each leaf `m` with `mu[m] ≠ 0` and `prime < lpf[m]`, query the sieve at
`stop = x / (prime * m) - low` and subtract `mu[m] * (phi[b] + count)` from
the running sum. -/
def S2_leafLoop1 (x low prime phi_b : Nat) (mList : List Nat)
    (sv : Sieve) (s2 : Int) : Sieve × Int :=
  mList.foldl (fun acc m =>
    if mu m ≠ 0 ∧ prime < lpf m then
      match acc.1.count (x / (prime * m) - low) with
      | (sv', cnt) => (sv', acc.2 - mu m * ((phi_b : Int) + (cnt : Int)))
    else acc) (sv, s2)

/-- The inner two-prime-leaf loop of `S2` (pi_lmo5.cpp lines 120-126): for
each `l` in the list, query the sieve at `stop = x / (prime * primes[l]) - low`
and add `phi[b] + count` to the running sum. -/
def S2_leafLoop2 (x low prime phi_b : Nat) (primes : List Nat)
    (lList : List Nat) (sv : Sieve) (s2 : Int) : Sieve × Int :=
  lList.foldl (fun acc l =>
    match acc.1.count (x / (prime * primes.getD l 0) - low) with
    | (sv', cnt) => (sv', acc.2 + ((phi_b : Int) + (cnt : Int)))) (sv, s2)

/-- The square-free-leaf regime of `S2` (pi_lmo5.cpp lines 83-105): iterate
`b` while `b ≤ pi_sqrty`; on `prime >= max_m` jump to the next segment
(flag `true`); otherwise run the leaf loop, then `phi[b] += total_count`,
then `cross_off_count(prime, b)`.  Returns the sieve, the updated `phi`,
the sum, the next `b` and the goto flag. -/
def S2_loop1 (x y : Nat) (primes : List Nat) (pi_sqrty low high : Nat) :
    Nat → Sieve → (Nat → Nat) → Int → Sieve × (Nat → Nat) × Int × Nat × Bool :=
  fun b sv phi s2 =>
    if b ≤ pi_sqrty then
      let prime := primes.getD b 0
      let low1 := max low 1
      let min_m := max (x / (prime * high)) (y / prime)
      let max_m := min (x / (prime * low1)) y
      if prime ≥ max_m then (sv, phi, s2, b, true)
      else
        match S2_leafLoop1 x low prime (phi b) (descRange min_m max_m) sv s2 with
        | (sv1, s21) =>
          let phi1 := fun b' => if b' = b then phi b + sv1.get_total_count else phi b'
          S2_loop1 x y primes pi_sqrty low high (b + 1) (sv1.cross_off_count prime) phi1 s21
    else (sv, phi, s2, b, false)
termination_by b => pi_sqrty + 1 - b
decreasing_by omega

/-- The list of `l` values visited by the two-prime-leaf loop
`for (; primes[l] > min_m; l--)` starting at `l0`. -/
def twoPrimeLs (primes : List Nat) (min_m l0 : Nat) : List Nat :=
  ((List.range (l0 + 1)).reverse).takeWhile (fun l => decide (min_m < primes.getD l 0))

/-- The two-prime-leaf regime of `S2` (pi_lmo5.cpp lines 111-130): iterate
`b` while `b < pi_y`; start `l` at `pi[min(x / (prime * low1), y)]`; on
`prime >= primes[l]` jump to the next segment; otherwise walk `l` downward
while `primes[l] > min_m` accumulating leaves, then `phi[b] += total_count`,
then `cross_off_count(prime, b)`. -/
def S2_loop2 (x y : Nat) (primes : List Nat) (pi_y low high : Nat) :
    Nat → Sieve → (Nat → Nat) → Int → Sieve × (Nat → Nat) × Int × Nat × Bool :=
  fun b sv phi s2 =>
    if b < pi_y then
      let prime := primes.getD b 0
      let low1 := max low 1
      let l0 := primePi (min (x / (prime * low1)) y)
      let min_m := max (x / (prime * high)) prime
      if prime ≥ primes.getD l0 0 then (sv, phi, s2, b, true)
      else
        match S2_leafLoop2 x low prime (phi b) primes (twoPrimeLs primes min_m l0) sv s2 with
        | (sv1, s21) =>
          let phi1 := fun b' => if b' = b then phi b + sv1.get_total_count else phi b'
          S2_loop2 x y primes pi_y low high (b + 1) (sv1.cross_off_count prime) phi1 s21
    else (sv, phi, s2, b, false)
termination_by b => pi_y - b
decreasing_by omega

/-- One segment `[low, high)` of `S2` (pi_lmo5.cpp lines 70-132):
`pre_sieve`, the square-free-leaf regime from `b = c + 1`, and (unless it
jumped to the next segment) the two-prime-leaf regime. -/
def S2_segment (x y c : Nat) (primes : List Nat) (pi_sqrty pi_y k low high : Nat)
    (phi : Nat → Nat) (s2 : Int) : (Nat → Nat) × Int :=
  let sv := Sieve.pre_sieve primes c low (high - low) k
  match S2_loop1 x y primes pi_sqrty low high (c + 1) sv phi s2 with
  | (sv1, phi1, s21, b1, goto1) =>
    if goto1 then (phi1, s21)
    else
      match S2_loop2 x y primes pi_y low high b1 sv1 phi1 s21 with
      | (_, phi2, s22, _, _) => (phi2, s22)

/-- The segmented sieve of Eratosthenes loop of `S2` (pi_lmo5.cpp lines
70-133): process segments `[low, min(low + segment_size, limit))` while
`low < limit`.  The `0 < segment_size` conjunct only rules out the
non-terminating degenerate call. -/
def S2_segLoop (x y c : Nat) (primes : List Nat)
    (pi_sqrty pi_y k segment_size limit : Nat) :
    Nat → (Nat → Nat) → Int → (Nat → Nat) × Int :=
  fun low phi s2 =>
    if _h : low < limit ∧ 0 < segment_size then
      let high := min (low + segment_size) limit
      match S2_segment x y c primes pi_sqrty pi_y k low high phi s2 with
      | (phi1, s21) =>
        S2_segLoop x y c primes pi_sqrty pi_y k segment_size limit
          (low + segment_size) phi1 s21
    else (phi, s2)
termination_by low => limit - low
decreasing_by omega

/-- `S2(x, y, c, primes, lpf, mu)` from pi_lmo5.cpp lines 44-137: the
contribution of the special leaves, computed over all segments of
`[0, x / y)`. -/
def S2_model (x y c k segment_size : Nat) : Int :=
  let limit := x / y
  let primes := primesUpTo y
  let pi_sqrty := primePi (Nat.sqrt y)
  let pi_y := primePi y
  (S2_segLoop x y c primes pi_sqrty pi_y k segment_size limit 0 (fun _ => 0) 0).2

/-- The `stop` values passed to `sieve.count` by the square-free-leaf inner
loop of pi_lmo5.cpp (lines 92-101) for one prime and one segment, in query
order (`m` descending, leaves filtered by `mu[m] ≠ 0 ∧ prime < lpf[m]`). -/
def leafStops1 (x y low high prime : Nat) : List Nat :=
  let low1 := max low 1
  let min_m := max (x / (prime * high)) (y / prime)
  let max_m := min (x / (prime * low1)) y
  ((descRange min_m max_m).filter
    (fun m => decide (mu m ≠ 0 ∧ prime < lpf m))).map
    (fun m => x / (prime * m) - low)

/-- The `stop` values passed to `sieve.count` by the two-prime-leaf inner
loop of pi_lmo5.cpp (lines 120-127) for one prime and one segment, in query
order (`l` descending from `pi[min(x / (prime * low1), y)]` while
`primes[l] > min_m`). -/
def leafStops2 (primes : List Nat) (x y low high prime : Nat) : List Nat :=
  let low1 := max low 1
  let l0 := primePi (min (x / (prime * low1)) y)
  let min_m := max (x / (prime * high)) prime
  if prime ≥ primes.getD l0 0 then []
  else (twoPrimeLs primes min_m l0).map (fun l => x / (prime * primes.getD l 0) - low)

/-! ### balanceLoad (P2.cpp) -/

/-- Modelled from the spec: `ceil_div` (imath.hpp is not among the sources)
is rounding-up division, `(a + b - 1) / b` with C++ truncated division. -/
def ceil_div (a b : Int) : Int := (a + b - 1) / b

/-- Modelled from the spec: `in_between(min, x, max)` (min.hpp is not among
the sources) clamps `x` into `[min, max]`, returning `min` when `x < min`
and `max` when `x > max`. -/
def in_between (lo x hi : Int) : Int :=
  if x < lo then lo else if x > hi then hi else x

/-- `balanceLoad` from P2.cpp lines 52-69: double the thread sieving
distance when the batch took less than 60 seconds, halve it when it took
more than 60 seconds, and clamp into
`[2^23, ceil_div(z - low, threads)]`.  The elapsed wall time is taken as a
parameter. -/
def balanceLoad (thread_distance low z threads : Int) (seconds : ℚ) : Int :=
  let min_distance : Int := 2 ^ 23
  let max_distance : Int := ceil_div (z - low) threads
  let d1 : Int := if seconds < 60 then thread_distance * 2 else thread_distance
  let d2 : Int := if seconds > 60 then d1 / 2 else d1
  in_between min_distance d2 max_distance

/-! ### Backup / resume (B.cpp, P2.cpp, Phi0.cpp)

The backup document is the opaque key-value text file of the external
backup collaborator; each kernel's entry is modelled as a record plus a
presence flag, and `is_resume` (backup.cpp is not among the sources) is
modelled from the spec as the header match on `(x, y[, z, k])`. -/

/-- The `"B"` entry of the backup document (fields read by B.cpp's resume). -/
structure JsonB where
  hasB : Bool
  x : Nat
  y : Nat
  low : Nat
  pi_low_minus_1 : Nat
  thread_distance : Nat
  sum : Int
  seconds : ℚ

/-- Modelled from the spec: `is_resume(json, "B", x, y)` holds when the
document has a `"B"` entry whose header `(x, y)` matches the invocation. -/
def is_resumeB (j : JsonB) (x y : Nat) : Bool :=
  j.hasB && j.x == x && j.y == y

/-- `resume` from B.cpp lines 105-127: when the header matches, restore
`low`, `pi_low_minus_1`, `thread_distance`, `sum` and the elapsed time
(`time = now - seconds`) and return `true`; otherwise return `false` and
leave every output parameter unchanged. -/
def resumeB (j : JsonB) (x y : Nat) (low pi_low_minus_1 thread_distance : Nat)
    (sum : Int) (time now : ℚ) : Bool × Nat × Nat × Nat × Int × ℚ :=
  if is_resumeB j x y then
    (true, j.low, j.pi_low_minus_1, j.thread_distance, j.sum, now - j.seconds)
  else
    (false, low, pi_low_minus_1, thread_distance, sum, time)

/-- The intermediate-result backup writer of B.cpp lines 49-76 (the fields
resume reads back). -/
def backupB (x y low pi_low_minus_1 thread_distance : Nat) (sum : Int)
    (seconds : ℚ) : JsonB :=
  { hasB := true, x := x, y := y, low := low,
    pi_low_minus_1 := pi_low_minus_1, thread_distance := thread_distance,
    sum := sum, seconds := seconds }

/-- The `"P2"` entry of the backup document (fields read by P2.cpp's resume). -/
structure JsonP2 where
  hasP2 : Bool
  x : Nat
  y : Nat
  z : Nat
  low : Nat
  thread_distance : Nat
  pix_total : Int
  p2 : Int
  seconds : ℚ

/-- Modelled from the spec: `is_resume(json, "P2", x, y, z)` checks the
header `(x, y, z)`. -/
def is_resumeP2 (j : JsonP2) (x y z : Nat) : Bool :=
  j.hasP2 && j.x == x && j.y == y && j.z == z

/-- `resume` from P2.cpp lines 143-166 (void in the source): when the
header matches, restore `low`, `thread_distance`, `pix_total`, `p2` and the
elapsed time; otherwise leave every output parameter unchanged. -/
def resumeP2 (j : JsonP2) (x y z : Nat) (low thread_distance : Nat)
    (pix_total p2 : Int) (time now : ℚ) : Nat × Nat × Int × Int × ℚ :=
  if is_resumeP2 j x y z then
    (j.low, j.thread_distance, j.pix_total, j.p2, now - j.seconds)
  else
    (low, thread_distance, pix_total, p2, time)

/-- The `"Phi0"` entry of the backup document (fields read by Phi0.cpp's
resume). -/
structure JsonPhi0 where
  hasPhi0 : Bool
  x : Nat
  y : Nat
  z : Nat
  k : Nat
  sum : Int
  seconds : ℚ

/-- Modelled from the spec: `is_resume(json, "Phi0", x, y, z, k)` checks
the header `(x, y, z, k)`. -/
def is_resumePhi0 (j : JsonPhi0) (x y z k : Nat) : Bool :=
  j.hasPhi0 && j.x == x && j.y == y && j.z == z && j.k == k

/-- `resume` from part_003 lines 62-84: when the header matches, restore
the final `sum` and the elapsed time and return `true`; otherwise return
`false` with the outputs unchanged. -/
def resumePhi0 (j : JsonPhi0) (x y z k : Nat) (sum : Int) (time now : ℚ) :
    Bool × Int × ℚ :=
  if is_resumePhi0 j x y z k then
    (true, j.sum, now - j.seconds)
  else
    (false, sum, time)

/-! ### Command-line option parsing (cmdoptions.cpp, part_001) -/

/-- The option identifiers of cmdoptions.hpp (not among the sources; the
members appear in the option map and the switch of part_001). -/
inductive OptionID where
  | backup | resume | alpha_y | alpha_z | gourdon | gourdon_64 | gourdon_128
  | help | legendre | meissel | nthprime | number | primesieve
  | li | liinv | ri | riinv | phi | ac | formulaB | formulaD | phi0 | sigma
  | status | selftest | time | threads | version
deriving DecidableEq, Repr

/-- `IsParam` from part_001 lines 43-48. -/
inductive IsParam where
  | no_param | required_param | optional_param
deriving DecidableEq, Repr

/-- `optionMap` from part_001 lines 51-94. -/
def optionMap : String → Option (OptionID × IsParam)
  | "-b" => some (OptionID.backup, IsParam.required_param)
  | "--backup" => some (OptionID.backup, IsParam.required_param)
  | "-r" => some (OptionID.resume, IsParam.optional_param)
  | "--resume" => some (OptionID.resume, IsParam.optional_param)
  | "--alpha-y" => some (OptionID.alpha_y, IsParam.required_param)
  | "--alpha-z" => some (OptionID.alpha_z, IsParam.required_param)
  | "-g" => some (OptionID.gourdon, IsParam.no_param)
  | "--gourdon" => some (OptionID.gourdon, IsParam.no_param)
  | "--gourdon-64" => some (OptionID.gourdon_64, IsParam.no_param)
  | "--gourdon-128" => some (OptionID.gourdon_128, IsParam.no_param)
  | "-h" => some (OptionID.help, IsParam.no_param)
  | "--help" => some (OptionID.help, IsParam.no_param)
  | "-l" => some (OptionID.legendre, IsParam.no_param)
  | "--legendre" => some (OptionID.legendre, IsParam.no_param)
  | "-m" => some (OptionID.meissel, IsParam.no_param)
  | "--meissel" => some (OptionID.meissel, IsParam.no_param)
  | "-n" => some (OptionID.nthprime, IsParam.no_param)
  | "--nth-prime" => some (OptionID.nthprime, IsParam.no_param)
  | "--number" => some (OptionID.number, IsParam.required_param)
  | "-p" => some (OptionID.primesieve, IsParam.no_param)
  | "--primesieve" => some (OptionID.primesieve, IsParam.no_param)
  | "--Li" => some (OptionID.li, IsParam.no_param)
  | "--Li-inverse" => some (OptionID.liinv, IsParam.no_param)
  | "--Ri" => some (OptionID.ri, IsParam.no_param)
  | "--Ri-inverse" => some (OptionID.riinv, IsParam.no_param)
  | "--phi" => some (OptionID.phi, IsParam.no_param)
  | "--AC" => some (OptionID.ac, IsParam.no_param)
  | "-B" => some (OptionID.formulaB, IsParam.no_param)
  | "--B" => some (OptionID.formulaB, IsParam.no_param)
  | "-D" => some (OptionID.formulaD, IsParam.no_param)
  | "--D" => some (OptionID.formulaD, IsParam.no_param)
  | "--Phi0" => some (OptionID.phi0, IsParam.no_param)
  | "--Sigma" => some (OptionID.sigma, IsParam.no_param)
  | "-s" => some (OptionID.status, IsParam.optional_param)
  | "--status" => some (OptionID.status, IsParam.optional_param)
  | "--test" => some (OptionID.selftest, IsParam.no_param)
  | "--time" => some (OptionID.time, IsParam.no_param)
  | "-t" => some (OptionID.threads, IsParam.required_param)
  | "--threads" => some (OptionID.threads, IsParam.required_param)
  | "-v" => some (OptionID.version, IsParam.no_param)
  | "--version" => some (OptionID.version, IsParam.no_param)
  | _ => none

/-- A Latin ASCII letter. -/
def isLatinLetter (c : Char) : Bool :=
  ('a' ≤ c && c ≤ 'z') || ('A' ≤ c && c ≤ 'Z')

/-- `isOption` from part_001 lines 125-143: `-o...` or `--o...` with a
Latin letter after the dashes. -/
def isOption (s : String) : Bool :=
  match s.toList with
  | '-' :: '-' :: c :: _ => isLatinLetter c
  | '-' :: c :: _ => isLatinLetter c
  | _ => false

/-- The parsed `Option` record of part_001 lines 97-120. -/
structure CmdOption where
  str : String
  opt : String
  val : String
deriving DecidableEq, Repr

/-- `parseOption` from part_001 lines 176-278.  Returns the parsed option
and how many extra `argv` entries were consumed (`0` or `1`), or the text
of the thrown `primecount_error`.  The source wraps the offending token in
single quotation marks inside the message; the quotation marks are left
out here. -/
def parseOption (argv : List String) (i : Nat) :
    Except String (CmdOption × Nat) :=
  let str := argv.getD i ""
  if str.isEmpty then
    Except.error ("unrecognized option " ++ str)
  else
    match optionMap str with
    | some (_, isParam) =>
      -- Option of the format --opt or -o (but not --opt=N)
      if isParam = IsParam.required_param then
        let val := argv.getD (i + 1) ""
        if val.isEmpty || isOption val then
          Except.error ("missing value for option " ++ str)
        else
          Except.ok ({ str := str, opt := str, val := val }, 1)
      else
        if isParam = IsParam.optional_param ∧ i + 1 < argv.length ∧
            ¬ (argv.getD (i + 1) "").isEmpty ∧ isOption (argv.getD (i + 1) "") = false then
          Except.ok ({ str := str, opt := str, val := argv.getD (i + 1) "" }, 1)
        else
          Except.ok ({ str := str, opt := str, val := "" }, 0)
    | none =>
      if isOption str then
        if str.toList.contains '=' then
          -- Option of type --opt=N (split at the first '=', `find`/`substr`)
          let optChars := str.toList.takeWhile (fun c => c ≠ '=')
          let o := String.mk optChars
          let val := String.mk (str.toList.drop (optChars.length + 1))
          if (optionMap o).isNone then
            Except.error ("unrecognized option " ++ o)
          else if val.isEmpty ∧
              (optionMap o).any (fun q => decide (q.2 = IsParam.required_param)) then
            Except.error ("missing value for option " ++ o)
          else
            Except.ok ({ str := str, opt := o, val := val }, 0)
        else
          -- Option of type --opt[N]: split at the first digit
          let optChars := str.toList.takeWhile (fun c => c.isDigit = false)
          let valChars := str.toList.drop optChars.length
          let optName := if valChars.isEmpty then str else String.mk optChars
          let val := String.mk valChars
          if (optionMap optName).isNone then
            Except.error ("unrecognized option " ++ str)
          else if val.isEmpty ∧
              (optionMap optName).any (fun q => decide (q.2 = IsParam.required_param)) then
            Except.error ("missing value for option " ++ optName)
          else
            Except.ok ({ str := str, opt := optName, val := val }, 0)
      else
        -- A number or an integer arithmetic expression
        if (str.toList.any (fun c => c.isDigit)) = false then
          Except.error ("unrecognized option " ++ str)
        else if str.toList.headD ' ' = '-' then
          Except.error ("unrecognized option " ++ str)
        else
          Except.ok ({ str := str, opt := "--number", val := str }, 0)

/-- Modelled from the spec: the numbers are evaluated by the internal
expression parser (calculator.hpp is not among the sources); plain decimal
numerals suffice for the parsing control flow stated here. -/
def to_maxint (s : String) : Option Nat := s.toNat?

/-- Modelled from the spec: `stod` succeeds when the value starts with a
digit; the numeric value itself does not influence the parser's control
flow. -/
def stod_ok (s : String) : Bool := (s.toList.headD ' ').isDigit

/-- The accumulated `CmdOptions` of cmdoptions.hpp (not among the sources;
the fields appear in the switch of `parseOptions`). -/
structure CmdOptions where
  optionId : Option OptionID := none
  numbers : List Nat := []
  x : Option Nat := none
  a : Option Nat := none
  time : Bool := false
  printOn : Bool := false
  statusPrecision : Option Nat := none
  threads : Option Nat := none
  alphaYSet : Bool := false
  alphaZSet : Bool := false
  backupFile : String := ""
  resumeFile : String := ""
deriving Repr

/-- The outcome of `parseOptions`: normal return, a thrown
`primecount_error`, or a process exit (`help`, `version`, `--test`). -/
inductive ParseOutcome where
  | ok (opts : CmdOptions)
  | err (msg : String)
  | exited (code : Nat)
deriving Repr

/-- The final checks of `parseOptions` (part_001 lines 311-332): outside a
resume, `--phi` requires two numbers and an `x` number must be present;
then the backup and resume file names must agree. -/
def parseOptionsFinal (opts : CmdOptions) : ParseOutcome :=
  let step1 : Except String CmdOptions :=
    if opts.resumeFile.isEmpty then
      if opts.optionId = some OptionID.phi then
        if opts.numbers.length < 2 then
          Except.error ("option --phi requires 2 numbers")
        else
          let opts := { opts with a := some (opts.numbers.getD 1 0) }
          if opts.numbers.isEmpty then Except.error ("missing x number")
          else Except.ok { opts with x := some (opts.numbers.getD 0 0) }
      else
        if opts.numbers.isEmpty then Except.error ("missing x number")
        else Except.ok { opts with x := some (opts.numbers.getD 0 0) }
    else Except.ok opts
  match step1 with
  | Except.error e => ParseOutcome.err e
  | Except.ok opts =>
    if ¬ opts.backupFile.isEmpty ∧ ¬ opts.resumeFile.isEmpty ∧
        opts.backupFile ≠ opts.resumeFile then
      ParseOutcome.err ("resume and backup file must be identical")
    else
      ParseOutcome.ok opts

/-- The option loop of `parseOptions` (part_001 lines 289-309), with the
filesystem abstracted as `fs` (used by `optionResume`'s open check) and the
global backup-file name threaded as `bg`. -/
def parseOptionsLoop (fs : String → Bool) (argv : List String) :
    Nat → CmdOptions → String → ParseOutcome
  | i, opts, bg =>
    if _h : i < argv.length then
      match parseOption argv i with
      | Except.error e => ParseOutcome.err e
      | Except.ok (opt, extra) =>
        match optionMap opt.opt with
        | none => ParseOutcome.err ("unrecognized option " ++ opt.opt)
        | some (oid, _) =>
          match oid with
          | OptionID.backup =>
            parseOptionsLoop fs argv (i + 1 + extra)
              { opts with backupFile := opt.val } opt.val
          | OptionID.resume =>
            let rf := if ¬ opt.val.isEmpty then opt.val else bg
            if fs rf then
              parseOptionsLoop fs argv (i + 1 + extra)
                { opts with resumeFile := rf } rf
            else
              ParseOutcome.err ("failed to open backup file: " ++ rf)
          | OptionID.alpha_y =>
            if stod_ok opt.val then
              parseOptionsLoop fs argv (i + 1 + extra)
                { opts with alphaYSet := true } bg
            else
              ParseOutcome.err ("invalid option " ++ opt.opt ++ "=" ++ opt.val)
          | OptionID.alpha_z =>
            if stod_ok opt.val then
              parseOptionsLoop fs argv (i + 1 + extra)
                { opts with alphaZSet := true } bg
            else
              ParseOutcome.err ("invalid option " ++ opt.opt ++ "=" ++ opt.val)
          | OptionID.number =>
            match to_maxint opt.val with
            | some n =>
              parseOptionsLoop fs argv (i + 1 + extra)
                { opts with numbers := opts.numbers ++ [n] } bg
            | none =>
              ParseOutcome.err ("invalid option " ++ opt.opt ++ "=" ++ opt.val)
          | OptionID.threads =>
            match to_maxint opt.val with
            | some n =>
              parseOptionsLoop fs argv (i + 1 + extra)
                { opts with threads := some n } bg
            | none =>
              ParseOutcome.err ("invalid option " ++ opt.opt ++ "=" ++ opt.val)
          | OptionID.help => ParseOutcome.exited 0
          | OptionID.status =>
            if opt.val.isEmpty then
              parseOptionsLoop fs argv (i + 1 + extra)
                { opts with printOn := true, time := true } bg
            else
              match to_maxint opt.val with
              | some n =>
                parseOptionsLoop fs argv (i + 1 + extra)
                  { opts with printOn := true, time := true,
                              statusPrecision := some n } bg
              | none =>
                ParseOutcome.err ("invalid option " ++ opt.opt ++ "=" ++ opt.val)
          | OptionID.time =>
            parseOptionsLoop fs argv (i + 1 + extra) { opts with time := true } bg
          | OptionID.selftest => ParseOutcome.exited 0
          | OptionID.version => ParseOutcome.exited 0
          | _ =>
            parseOptionsLoop fs argv (i + 1 + extra)
              { opts with optionId := some oid } bg
    else
      parseOptionsFinal opts
termination_by i => argv.length - i
decreasing_by all_goals omega

/-- `parseOptions` from part_001 lines 280-333: `help(1)` when no
command-line options are provided, otherwise the option loop from `i = 1`.
The initial global backup-file name is the default of the backup
collaborator. -/
def parseOptions (fs : String → Bool) (argv : List String) : ParseOutcome :=
  if argv.length ≤ 1 then ParseOutcome.exited 1
  else parseOptionsLoop fs argv 1 {} ("primecount.backup")

/-- The primes handled by one thread window of the `P2`/`B` kernels: the
sieving primes `y < p ≤ isqrt(x)` whose quotient `x / p` falls inside
`[lo, hi)`. -/
def windowPrimes (x y lo hi : Nat) : List Nat :=
  (primesBetween (y + 1) (Nat.sqrt x)).filter
    (fun p => decide (lo ≤ x / p ∧ x / p < hi))

/-! ### Segment bit-array characterization for the hard-leaves loops -/

/-- The bit array of one sieve segment after pre-sieving and the cross-off
of the sieving primes `primes[1..j]`: offset `i` is set exactly when
`low + i` is odd and not divisible by any of `primes[1..j]` (equivalently,
when `low + i` has least prime factor greater than `primes[j]`, with the
handling of 2 folded into the oddness condition). -/
def afterBits (primes : List Nat) (low size j : Nat) : Nat → Bool :=
  fun i => decide (i < size ∧ (low + i) % 2 = 1 ∧
    ∀ t, t ≤ j → 1 ≤ t → ¬ (primes.getD t 0 ∣ (low + i)))

/-- The square-free-leaf regime of `S2` runs index `b` in a segment
(instead of jumping to the next segment) exactly when its leaf range is
nonempty: the negation of the `prime >= max_m` test of pi_lmo5.cpp
line 90. -/
def noGoto1 (x y low : Nat) (primes : List Nat) (b : Nat) : Prop :=
  primes.getD b 0 < min (x / (primes.getD b 0 * max low 1)) y

/-- The two-prime-leaf regime of `S2` runs index `b` in a segment exactly
when `prime < primes[l]` for the starting `l`: the negation of the
`prime >= primes[l]` test of pi_lmo5.cpp line 118. -/
def noGoto2 (x y low : Nat) (primes : List Nat) (b : Nat) : Prop :=
  primes.getD b 0 <
    primes.getD (primePi (min (x / (primes.getD b 0 * max low 1)) y)) 0

/-! ### Sieve invariants -/

/-- Invariant of the sieve's bit-level state: the bits live below
`sieve_size`, bit `0` (the even integer `low`) is clear, every counter
holds the popcount of its bucket and `total_count` is the popcount of the
whole array. -/
structure BitsInv (s : Sieve) : Prop where
  size_pos : 0 < s.sieve_size
  bounded : ∀ i, s.sieve_size ≤ i → s.bits i = false
  bit0 : s.bits 0 = false
  counters_ok : ∀ j, s.counters j =
    countIco s.bits (j * 2 ^ s.counters_dist_log2) ((j + 1) * 2 ^ s.counters_dist_log2)
  total_ok : s.total_count = popcountBelow s.bits s.sieve_size
  counters_size_eq : s.counters_size = s.sieve_size / 2 ^ s.counters_dist_log2 + 1

/-- Invariant of the batched-counting cursor: `counters_stop` is the bound
of the next unconsumed bucket, `counters_count` is the popcount of the
consumed buckets, `count_` is the popcount cumulated up to `prev_stop`,
and the consumed buckets lie below the cumulated bound. -/
structure CursorInv (s : Sieve) : Prop where
  cstop_eq : s.counters_stop = (s.counters_i + 1) * 2 ^ s.counters_dist_log2
  sum_eq : s.counters_count = popcountBelow s.bits (s.counters_i * 2 ^ s.counters_dist_log2)
  cnt_eq : s.count_ = countRange s.bits 0 s.prev_stop
  consumed_le : s.counters_i * 2 ^ s.counters_dist_log2 ≤ s.prev_stop + 1
  prev_lt : s.prev_stop < s.sieve_size

/-! ## Theorems -/

section CountingLemmas

variable (bits : Nat → Bool)

theorem countIco_split {a m b : Nat} (h1 : a ≤ m) (h2 : m ≤ b) :
    countIco bits a b = countIco bits a m + countIco bits m b := by
  unfold countIco
  rw [← Finset.Ico_union_Ico_eq_Ico h1 h2, Finset.filter_union,
    Finset.card_union_of_disjoint]
  exact Finset.disjoint_filter_filter (Finset.Ico_disjoint_Ico_consecutive a m b)

theorem countRange_eq_countIco (a b : Nat) :
    countRange bits a b = countIco bits a (b + 1) := rfl

theorem popcountBelow_eq_countIco (n : Nat) :
    popcountBelow bits n = countIco bits 0 n := by
  unfold popcountBelow countIco
  rw [Finset.range_eq_Ico]

theorem countIco_congr {bits' : Nat → Bool} (h : ∀ i, bits i = bits' i) (a b : Nat) :
    countIco bits a b = countIco bits' a b := by
  unfold countIco
  congr 1
  exact Finset.filter_congr (fun i _ => by rw [h i])

theorem countIco_empty {a b : Nat} (h : b ≤ a) : countIco bits a b = 0 := by
  unfold countIco
  rw [Finset.Ico_eq_empty (by omega), Finset.filter_empty, Finset.card_empty]

/-- The cleared-bit window: clearing bit `i` removes it from the filtered
window set. -/
theorem countIco_clear_filter (i a b : Nat) :
    (Finset.Ico a b).filter (fun j => (if j = i then false else bits j) = true) =
      ((Finset.Ico a b).filter (fun j => bits j = true)).erase i := by
  ext t
  by_cases ht : t = i
  · subst ht
    simp
  · simp [Finset.mem_filter, Finset.mem_erase, ht]

/-- Clearing a set bit inside the window decrements the count by one. -/
theorem countIco_clear_mem {i a b : Nat} (hmem : a ≤ i ∧ i < b) (hset : bits i = true) :
    countIco (fun j => if j = i then false else bits j) a b + 1 = countIco bits a b := by
  unfold countIco
  rw [countIco_clear_filter]
  have hi : i ∈ (Finset.Ico a b).filter (fun j => bits j = true) :=
    Finset.mem_filter.mpr ⟨Finset.mem_Ico.mpr hmem, hset⟩
  rw [Finset.card_erase_of_mem hi]
  have := Finset.card_pos.mpr ⟨i, hi⟩
  omega

/-- Clearing a bit outside the window, or an already clear bit, leaves the
count unchanged. -/
theorem countIco_clear_not_mem {i a b : Nat}
    (h : ¬ (a ≤ i ∧ i < b ∧ bits i = true)) :
    countIco (fun j => if j = i then false else bits j) a b = countIco bits a b := by
  unfold countIco
  rw [countIco_clear_filter]
  by_cases hio : i ∈ Finset.Ico a b
  · have : i ∉ (Finset.Ico a b).filter (fun j => bits j = true) := by
      intro hmem
      rcases Finset.mem_filter.mp hmem with ⟨h1, h2⟩
      rcases Finset.mem_Ico.mp h1 with ⟨h3, h4⟩
      exact h ⟨h3, h4, h2⟩
    rw [Finset.erase_eq_of_not_mem this]
  · have : i ∉ (Finset.Ico a b).filter (fun j => bits j = true) := by
      intro hmem
      exact hio (Finset.mem_filter.mp hmem).1
    rw [Finset.erase_eq_of_not_mem this]

/-- Bits vanish above `n`, so counting can stop at `n`. -/
theorem countIco_of_bounded {n : Nat} (hb : ∀ i, n ≤ i → bits i = false)
    {a b : Nat} (hn : n ≤ b) (han : a ≤ n) :
    countIco bits a b = countIco bits a n := by
  rw [countIco_split bits han hn]
  have : countIco bits n b = 0 := by
    unfold countIco
    rw [Finset.card_eq_zero, Finset.filter_eq_empty_iff]
    intro i hi
    rcases Finset.mem_Ico.mp hi with ⟨h1, _⟩
    simp [hb i h1]
  omega

end CountingLemmas

section SieveCount

theorem counters_dist_pos (s : Sieve) : 0 < s.counters_dist :=
  Nat.pos_pow_of_pos _ (by decide)

/-- Behaviour of the bucket-consuming loop of `Sieve::count`: starting from
a consistent cursor, it stops with `counters_stop` just past `stop`, having
accumulated exactly the popcount of the consumed buckets; when it ran, the
linear-phase start is the bound of the consumed buckets and `count_` was
overwritten with the accumulated popcount. -/
theorem countBuckets_spec {bits : Nat → Bool} (counters : Nat → Nat) (k stop : Nat)
    (hco : ∀ j, counters j = countIco bits (j * 2 ^ k) ((j + 1) * 2 ^ k)) :
    ∀ n i sum cstop start cnt,
      stop + 1 ≤ cstop + n →
      cstop = (i + 1) * 2 ^ k →
      sum = countIco bits 0 (i * 2 ^ k) →
      ∃ i', countBuckets counters k stop i sum cstop start cnt =
        (i', countIco bits 0 (i' * 2 ^ k), (i' + 1) * 2 ^ k,
         if i' = i then start else i' * 2 ^ k,
         if i' = i then cnt else countIco bits 0 (i' * 2 ^ k)) ∧
        i ≤ i' ∧ stop < (i' + 1) * 2 ^ k ∧ (i' = i ∨ i' * 2 ^ k ≤ stop) := by
  have hd : 0 < 2 ^ k := Nat.pos_pow_of_pos _ (by decide)
  intro n
  induction n with
  | zero =>
    intro i sum cstop start cnt hfuel hcstop hsum
    have hgt : ¬ cstop ≤ stop := by omega
    refine ⟨i, ?_, le_refl i, by omega, Or.inl rfl⟩
    rw [countBuckets]
    simp only [if_neg hgt]
    rw [hcstop, hsum]
    simp
  | succ n ih =>
    intro i sum cstop start cnt hfuel hcstop hsum
    by_cases hle : cstop ≤ stop
    · have hsum' : sum + counters i = countIco bits 0 ((i + 1) * 2 ^ k) := by
        rw [hsum, hco i]
        rw [← countIco_split bits (Nat.zero_le _) (Nat.mul_le_mul_right _ (by omega))]
      have hcstop' : cstop + 2 ^ k = (i + 1 + 1) * 2 ^ k := by
        rw [hcstop]; ring
      obtain ⟨i', heq, hge, hlt, hdisj⟩ :=
        ih (i + 1) (sum + counters i) (cstop + 2 ^ k) cstop (sum + counters i)
          (by omega) hcstop' hsum'
      refine ⟨i', ?_, by omega, hlt, Or.inr ?_⟩
      · rw [countBuckets]
        simp only [if_pos hle]
        rw [heq]
        have hne : ¬ i' = i := by omega
        by_cases hii : i' = i + 1
        · subst hii
          simp only [if_neg hne]
          rw [hsum', hcstop]
          simp
        · simp only [if_neg hii, if_neg hne]
      · rcases hdisj with h1 | h2
        · subst h1; omega
        · exact h2
    · refine ⟨i, ?_, le_refl i, by omega, Or.inl rfl⟩
      rw [countBuckets]
      simp only [if_neg hle]
      rw [hcstop, hsum]
      simp

/-- Correctness of one `Sieve::count(stop)` query on a consistent state
with a monotone in-range stop: it returns the brute-force popcount of
`[0, stop]`, preserves both invariants and leaves the non-cursor state
unchanged. -/
theorem Sieve.count_spec {s : Sieve} (hB : BitsInv s) (hC : CursorInv s)
    {stop : Nat} (hmono : s.prev_stop ≤ stop) (hlt : stop < s.sieve_size) :
    (s.count stop).2 = countRange s.bits 0 stop ∧
    BitsInv (s.count stop).1 ∧ CursorInv (s.count stop).1 ∧
    (s.count stop).1.bits = s.bits ∧
    (s.count stop).1.low = s.low ∧
    (s.count stop).1.sieve_size = s.sieve_size ∧
    (s.count stop).1.total_count = s.total_count ∧
    (s.count stop).1.counters = s.counters ∧
    (s.count stop).1.counters_dist_log2 = s.counters_dist_log2 ∧
    (s.count stop).1.counters_size = s.counters_size ∧
    (s.count stop).1.prev_stop = stop := by
  have hd : 0 < 2 ^ s.counters_dist_log2 := Nat.pos_pow_of_pos _ (by decide)
  have hco : ∀ j, s.counters j =
      countIco s.bits (j * 2 ^ s.counters_dist_log2) ((j + 1) * 2 ^ s.counters_dist_log2) :=
    hB.counters_ok
  obtain ⟨i', heq, hge, hlt', hdisj⟩ :=
    @countBuckets_spec s.bits s.counters s.counters_dist_log2 stop hco
      (stop + 1) s.counters_i s.counters_count s.counters_stop (s.prev_stop + 1)
      s.count_ (by omega) hC.cstop_eq
      (by rw [hC.sum_eq, popcountBelow_eq_countIco])
  have hres : s.count stop =
      ({ s with prev_stop := stop, counters_i := i',
                counters_count := countIco s.bits 0 (i' * 2 ^ s.counters_dist_log2),
                counters_stop := (i' + 1) * 2 ^ s.counters_dist_log2,
                count_ := (if i' = s.counters_i then s.count_
                  else countIco s.bits 0 (i' * 2 ^ s.counters_dist_log2)) +
                  countRange s.bits
                    (if i' = s.counters_i then s.prev_stop + 1
                     else i' * 2 ^ s.counters_dist_log2) stop },
       (if i' = s.counters_i then s.count_
        else countIco s.bits 0 (i' * 2 ^ s.counters_dist_log2)) +
        countRange s.bits
          (if i' = s.counters_i then s.prev_stop + 1
           else i' * 2 ^ s.counters_dist_log2) stop) := by
    unfold Sieve.count
    rw [heq]
  have hcntval : (if i' = s.counters_i then s.count_
      else countIco s.bits 0 (i' * 2 ^ s.counters_dist_log2)) +
      countRange s.bits
        (if i' = s.counters_i then s.prev_stop + 1
         else i' * 2 ^ s.counters_dist_log2) stop = countRange s.bits 0 stop := by
    by_cases hii : i' = s.counters_i
    · simp only [if_pos hii]
      rw [hC.cnt_eq]
      simp only [countRange_eq_countIco]
      exact (countIco_split s.bits (Nat.zero_le (s.prev_stop + 1))
        (by omega : s.prev_stop + 1 ≤ stop + 1)).symm
    · simp only [if_neg hii]
      have hle2 : i' * 2 ^ s.counters_dist_log2 ≤ stop := by
        rcases hdisj with h1 | h2
        · exact absurd h1 hii
        · exact h2
      simp only [countRange_eq_countIco]
      exact (countIco_split s.bits (Nat.zero_le _)
        (by omega : i' * 2 ^ s.counters_dist_log2 ≤ stop + 1)).symm
  have hconsumed : i' * 2 ^ s.counters_dist_log2 ≤ stop + 1 := by
    rcases hdisj with h1 | h2
    · subst h1
      have := hC.consumed_le
      omega
    · omega
  rw [hres]
  refine ⟨hcntval, ?_, ?_, rfl, rfl, rfl, rfl, rfl, rfl, rfl, rfl⟩
  · exact ⟨hB.size_pos, hB.bounded, hB.bit0, hB.counters_ok, hB.total_ok,
      hB.counters_size_eq⟩
  · exact ⟨rfl, (popcountBelow_eq_countIco s.bits _).symm, hcntval, hconsumed, hlt⟩

end SieveCount

section SieveCross

theorem popcountBelow_zero (bits : Nat → Bool) : popcountBelow bits 0 = 0 := by
  unfold popcountBelow
  simp

theorem countRange_zero_of_bit0 {bits : Nat → Bool} (h0 : bits 0 = false) :
    countRange bits 0 0 = 0 := by
  unfold countRange
  rw [Finset.card_eq_zero, Finset.filter_eq_empty_iff]
  intro i hi
  rcases Finset.mem_Ico.mp hi with ⟨_, h2⟩
  interval_cases i
  simp [h0]

/-- The bucket `i / 2 ^ k` is the unique one whose window contains `i`. -/
theorem bucket_window {i j k : Nat} :
    (j * 2 ^ k ≤ i ∧ i < (j + 1) * 2 ^ k) ↔ j = i / 2 ^ k := by
  have hd : 0 < 2 ^ k := Nat.pos_pow_of_pos _ (by decide)
  constructor
  · rintro ⟨h1, h2⟩
    exact (Nat.div_eq_of_lt_le h1 h2).symm
  · rintro rfl
    refine ⟨Nat.div_mul_le_self i (2 ^ k), ?_⟩
    have := Nat.lt_mul_div_succ i hd
    calc i < 2 ^ k * (i / 2 ^ k + 1) := this
    _ = (i / 2 ^ k + 1) * 2 ^ k := Nat.mul_comm _ _

theorem cross_off_bit_fixed (s : Sieve) (i : Nat) :
    (s.cross_off_bit i).low = s.low ∧
    (s.cross_off_bit i).sieve_size = s.sieve_size ∧
    (s.cross_off_bit i).counters_dist_log2 = s.counters_dist_log2 ∧
    (s.cross_off_bit i).counters_size = s.counters_size ∧
    (s.cross_off_bit i).prev_stop = s.prev_stop ∧
    (s.cross_off_bit i).counters_i = s.counters_i ∧
    (s.cross_off_bit i).counters_count = s.counters_count ∧
    (s.cross_off_bit i).counters_stop = s.counters_stop ∧
    (s.cross_off_bit i).count_ = s.count_ :=
  ⟨rfl, rfl, rfl, rfl, rfl, rfl, rfl, rfl, rfl⟩

theorem cross_off_bit_bits (s : Sieve) (i : Nat) :
    (s.cross_off_bit i).bits = fun j => if j = i then false else s.bits j := rfl

/-- One cross-off step preserves the bit-level invariant. -/
theorem BitsInv.cross_off_bit {s : Sieve} (hB : BitsInv s) (i : Nat) :
    BitsInv (s.cross_off_bit i) := by
  have hd : 0 < 2 ^ s.counters_dist_log2 := Nat.pos_pow_of_pos _ (by decide)
  have hshift : i >>> s.counters_dist_log2 = i / 2 ^ s.counters_dist_log2 :=
    Nat.shiftRight_eq_div_pow i s.counters_dist_log2
  refine ⟨hB.size_pos, ?_, ?_, ?_, ?_, hB.counters_size_eq⟩
  · intro j hj
    show (if j = i then false else s.bits j) = false
    by_cases hji : j = i
    · simp [hji]
    · simp [hji, hB.bounded j hj]
  · show (if 0 = i then false else s.bits 0) = false
    by_cases h0 : 0 = i
    · simp [h0]
    · simp [h0, hB.bit0]
  · intro j
    show (if j = i >>> s.counters_dist_log2
        then s.counters j - (if s.bits i then 1 else 0) else s.counters j) =
      countIco (fun t => if t = i then false else s.bits t)
        (j * 2 ^ s.counters_dist_log2) ((j + 1) * 2 ^ s.counters_dist_log2)
    by_cases hbit : s.bits i = true
    · simp only [hbit, if_true]
      by_cases hji : j = i >>> s.counters_dist_log2
      · have hj2 : j = i / 2 ^ s.counters_dist_log2 := by rw [hji, hshift]
        have hwin := bucket_window.mpr hj2
        rw [if_pos hji, hB.counters_ok j]
        have hclear := @countIco_clear_mem s.bits i (j * 2 ^ s.counters_dist_log2)
          ((j + 1) * 2 ^ s.counters_dist_log2) hwin hbit
        omega
      · rw [if_neg hji, hB.counters_ok j]
        have hnwin : ¬ (j * 2 ^ s.counters_dist_log2 ≤ i ∧
            i < (j + 1) * 2 ^ s.counters_dist_log2 ∧ s.bits i = true) := by
          rintro ⟨h1, h2, _⟩
          exact hji (by rw [hshift]; exact bucket_window.mp ⟨h1, h2⟩)
        exact (countIco_clear_not_mem s.bits hnwin).symm
    · have hbit' : s.bits i = false := by
        cases h : s.bits i
        · rfl
        · exact absurd h hbit
      have hnwin : ¬ (j * 2 ^ s.counters_dist_log2 ≤ i ∧
          i < (j + 1) * 2 ^ s.counters_dist_log2 ∧ s.bits i = true) := by
        rintro ⟨_, _, hc⟩
        rw [hbit'] at hc
        exact Bool.false_ne_true hc
      have hsame := countIco_clear_not_mem s.bits hnwin
      rw [hsame, hbit']
      simp only [Bool.false_eq_true, if_false, Nat.sub_zero]
      by_cases hji : j = i >>> s.counters_dist_log2
      · rw [if_pos hji, hB.counters_ok j]
      · rw [if_neg hji, hB.counters_ok j]
  · show s.total_count - (if s.bits i then 1 else 0) =
      popcountBelow (fun t => if t = i then false else s.bits t) s.sieve_size
    by_cases hbit : s.bits i = true
    · have hisize : i < s.sieve_size := by
        by_contra hc
        push_neg at hc
        rw [hB.bounded i hc] at hbit
        exact Bool.false_ne_true hbit
      simp only [hbit, if_true]
      rw [hB.total_ok, popcountBelow_eq_countIco, popcountBelow_eq_countIco]
      have hclear := @countIco_clear_mem s.bits i 0 s.sieve_size
        ⟨Nat.zero_le _, hisize⟩ hbit
      omega
    · have hbit' : s.bits i = false := by
        cases h : s.bits i
        · rfl
        · exact absurd h hbit
      have hnot : ¬ ((0 : Nat) ≤ i ∧ i < s.sieve_size ∧ s.bits i = true) := by
        rintro ⟨_, _, hc⟩
        rw [hbit'] at hc
        exact Bool.false_ne_true hc
      rw [hbit']
      simp only [Bool.false_eq_true, if_false, Nat.sub_zero]
      rw [hB.total_ok, popcountBelow_eq_countIco, popcountBelow_eq_countIco]
      exact (countIco_clear_not_mem s.bits hnot).symm

theorem foldl_cross_off_fixed (l : List Nat) (s : Sieve) :
    (l.foldl Sieve.cross_off_bit s).low = s.low ∧
    (l.foldl Sieve.cross_off_bit s).sieve_size = s.sieve_size ∧
    (l.foldl Sieve.cross_off_bit s).counters_dist_log2 = s.counters_dist_log2 ∧
    (l.foldl Sieve.cross_off_bit s).counters_size = s.counters_size := by
  induction l generalizing s with
  | nil => exact ⟨rfl, rfl, rfl, rfl⟩
  | cons a l ih =>
    simp only [List.foldl_cons]
    exact ih (s.cross_off_bit a)

theorem foldl_cross_off_bits (l : List Nat) (s : Sieve) :
    (l.foldl Sieve.cross_off_bit s).bits = fun j => if j ∈ l then false else s.bits j := by
  induction l generalizing s with
  | nil =>
    funext j
    simp
  | cons a l ih =>
    simp only [List.foldl_cons]
    rw [ih (s.cross_off_bit a)]
    funext j
    rw [cross_off_bit_bits]
    by_cases hjl : j ∈ l
    · simp [hjl]
    · by_cases hja : j = a
      · simp [hja, hjl]
      · simp [hja, hjl]

theorem BitsInv.foldl_cross {s : Sieve} (hB : BitsInv s) (l : List Nat) :
    BitsInv (l.foldl Sieve.cross_off_bit s) := by
  induction l generalizing s with
  | nil => exact hB
  | cons a l ih =>
    simp only [List.foldl_cons]
    exact ih (hB.cross_off_bit a)

theorem mem_oddMultiples {p low size i : Nat} :
    i ∈ oddMultiples p low size ↔
      i < size ∧ (low + i) % p = 0 ∧ (low + i) % 2 = 1 := by
  unfold oddMultiples
  simp [List.mem_filter, List.mem_range, Bool.and_eq_true, beq_iff_eq, and_assoc]

/-- `cross_off_count` preserves the bit invariant, re-establishes the
cursor invariant, acts on the bit array exactly as the reference
`specCross`, and keeps the segment parameters. -/
theorem Sieve.cross_off_count_spec {s : Sieve} (hB : BitsInv s) (p : Nat) :
    BitsInv (s.cross_off_count p) ∧ CursorInv (s.cross_off_count p) ∧
    (s.cross_off_count p).bits = specCross s.low s.sieve_size p s.bits ∧
    (s.cross_off_count p).low = s.low ∧
    (s.cross_off_count p).sieve_size = s.sieve_size ∧
    (s.cross_off_count p).counters_dist_log2 = s.counters_dist_log2 ∧
    (s.cross_off_count p).counters_size = s.counters_size ∧
    (s.cross_off_count p).prev_stop = 0 ∧
    (s.cross_off_count p).total_count =
      (((oddMultiples p s.low s.sieve_size)).foldl Sieve.cross_off_bit s).total_count := by
  have hB' := hB.foldl_cross (oddMultiples p s.low s.sieve_size)
  obtain ⟨hlow, hsize, hlog, hcsize⟩ :=
    foldl_cross_off_fixed (oddMultiples p s.low s.sieve_size) s
  have hbits' := foldl_cross_off_bits (oddMultiples p s.low s.sieve_size) s
  have hbitsEq : (s.cross_off_count p).bits = specCross s.low s.sieve_size p s.bits := by
    show ((oddMultiples p s.low s.sieve_size).foldl Sieve.cross_off_bit s).bits = _
    rw [hbits']
    funext j
    unfold specCross
    by_cases hm : j ∈ oddMultiples p s.low s.sieve_size
    · rw [if_pos hm, if_pos (mem_oddMultiples.mp hm)]
    · rw [if_neg hm, if_neg (fun hc => hm (mem_oddMultiples.mpr hc))]
  have hBres : BitsInv (s.cross_off_count p) :=
    ⟨hB'.size_pos, hB'.bounded, hB'.bit0, hB'.counters_ok, hB'.total_ok,
      hB'.counters_size_eq⟩
  refine ⟨hBres, ?_, hbitsEq, hlow, hsize, hlog, hcsize, rfl, rfl⟩
  refine ⟨?_, ?_, ?_, ?_, ?_⟩ <;>
    simp only [Sieve.cross_off_count]
  · exact (one_mul _).symm
  · rw [Nat.zero_mul, popcountBelow_zero]
  · exact (countRange_zero_of_bit0 hB'.bit0).symm
  · simp
  · exact hB'.size_pos

/-- `pre_sieve` establishes both invariants (for an even segment start, so
that offset `0` is an unrepresented even integer). -/
theorem Sieve.pre_sieve_spec (primes : List Nat) (c low size k : Nat)
    (hlow : low % 2 = 0) (hsize : 0 < size) :
    BitsInv (Sieve.pre_sieve primes c low size k) ∧
    CursorInv (Sieve.pre_sieve primes c low size k) := by
  have hd : 0 < 2 ^ k := Nat.pos_pow_of_pos _ (by decide)
  have hbit0 : preSieveBits primes c low size 0 = false := by
    unfold preSieveBits
    rw [decide_eq_false_iff_not]
    rintro ⟨_, h2, _⟩
    omega
  have hbounded : ∀ i, size ≤ i → preSieveBits primes c low size i = false := by
    intro i hi
    unfold preSieveBits
    rw [decide_eq_false_iff_not]
    rintro ⟨h1, _, _⟩
    omega
  constructor
  · refine ⟨hsize, hbounded, hbit0, ?_, rfl, rfl⟩
    intro j
    show countRange (preSieveBits primes c low size) (j * 2 ^ k) ((j + 1) * 2 ^ k - 1) =
      countIco (preSieveBits primes c low size) (j * 2 ^ k) ((j + 1) * 2 ^ k)
    rw [countRange_eq_countIco]
    have hpos : 0 < (j + 1) * 2 ^ k := Nat.mul_pos (Nat.succ_pos j) hd
    have heq : (j + 1) * 2 ^ k - 1 + 1 = (j + 1) * 2 ^ k := by omega
    rw [heq]
  · refine ⟨(one_mul _).symm, ?_, (countRange_zero_of_bit0 hbit0).symm, ?_, hsize⟩
    · show 0 = popcountBelow (preSieveBits primes c low size) (0 * 2 ^ k)
      rw [Nat.zero_mul, popcountBelow_zero]
    · show 0 * 2 ^ k ≤ 0 + 1
      simp

theorem stopsOf_cross (p : Nat) (ops : List SieveOp) :
    stopsOf (SieveOp.cross p :: ops) = stopsOf ops := rfl

theorem stopsOf_query (st : Nat) (ops : List SieveOp) :
    stopsOf (SieveOp.query st :: ops) = st :: stopsOf ops := rfl

/-- The central refinement: on an invariant-satisfying sieve, any operation
sequence whose `count` stops are monotone (continuing the cursor) and in
range produces exactly the brute-force reference answers of `specRun`. -/
theorem Sieve.run_spec : ∀ (ops : List SieveOp) (s : Sieve),
    BitsInv s → CursorInv s →
    List.Chain' (· ≤ ·) (s.prev_stop :: stopsOf ops) →
    (∀ st ∈ stopsOf ops, st < s.sieve_size) →
    (Sieve.run s ops).2 = specRun s.low s.sieve_size s.bits ops := by
  intro ops
  induction ops with
  | nil =>
    intro s _ _ _ _
    rfl
  | cons op ops ih =>
    intro s hB hC hchain hbound
    cases op with
    | cross p =>
      obtain ⟨hB', hC', hbits, hlow, hsize, _, _, hprev, _⟩ :=
        Sieve.cross_off_count_spec hB p
      have hchain' : List.Chain' (· ≤ ·)
          ((s.cross_off_count p).prev_stop :: stopsOf ops) := by
        rw [hprev]
        rw [stopsOf_cross] at hchain
        rcases List.chain'_cons'.mp hchain with ⟨_, htail⟩
        refine List.chain'_cons'.mpr ⟨?_, htail⟩
        intro b _
        exact Nat.zero_le b
      have hbound' : ∀ st ∈ stopsOf ops, st < (s.cross_off_count p).sieve_size := by
        rw [hsize]
        rw [stopsOf_cross] at hbound
        exact hbound
      have hrec := ih (s.cross_off_count p) hB' hC' hchain' hbound'
      show (Sieve.run (s.cross_off_count p) ops).2 = _
      rw [hrec, hbits, hlow, hsize]
      rfl
    | query st =>
      rw [stopsOf_query] at hchain hbound
      have hmono : s.prev_stop ≤ st := (List.chain'_cons.mp hchain).1
      have hlt : st < s.sieve_size := hbound st (List.mem_cons_self st _)
      obtain ⟨hval, hB', hC', hbits, hlow, hsize, _, _, _, _, hprev⟩ :=
        Sieve.count_spec hB hC hmono hlt
      have hchain' : List.Chain' (· ≤ ·)
          ((s.count st).1.prev_stop :: stopsOf ops) := by
        rw [hprev]
        exact (List.chain'_cons.mp hchain).2
      have hbound' : ∀ t ∈ stopsOf ops, t < (s.count st).1.sieve_size := by
        rw [hsize]
        intro t ht
        exact hbound t (List.mem_cons_of_mem st ht)
      have hrec := ih (s.count st).1 hB' hC' hchain' hbound'
      rcases hcnt : s.count st with ⟨s', v⟩
      simp only [hcnt] at hrec hbits hlow hsize hval
      have hbits' : s'.bits = s.bits := hbits
      have hlow' : s'.low = s.low := hlow
      have hsize' : s'.sieve_size = s.sieve_size := hsize
      have hval' : v = countRange s.bits 0 st := hval
      have hrec' : (Sieve.run s' ops).2 = specRun s'.low s'.sieve_size s'.bits ops := hrec
      show (match s.count st with
        | (s', v) =>
          match Sieve.run s' ops with
          | (s'', vs) => (s'', v :: vs)).2 = specRun s.low s.sieve_size s.bits (SieveOp.query st :: ops)
      rw [hcnt]
      rcases hrun : Sieve.run s' ops with ⟨s'', vs⟩
      rw [hrun] at hrec'
      show (match Sieve.run s' ops with
        | (s'', vs) => (s'', v :: vs)).2 =
          specRun s.low s.sieve_size s.bits (SieveOp.query st :: ops)
      rw [hrun]
      show v :: vs = specRun s.low s.sieve_size s.bits (SieveOp.query st :: ops)
      have hvs : vs = specRun s.low s.sieve_size s.bits ops := by
        rw [← hbits', ← hlow', ← hsize']
        exact hrec'
      rw [hval', hvs]
      rfl

/-- A `count` query never modifies the bit-level state, whatever the stop. -/
theorem Sieve.count_fields_fixed (s : Sieve) (stop : Nat) :
    (s.count stop).1.bits = s.bits ∧
    (s.count stop).1.low = s.low ∧
    (s.count stop).1.sieve_size = s.sieve_size ∧
    (s.count stop).1.total_count = s.total_count ∧
    (s.count stop).1.counters = s.counters ∧
    (s.count stop).1.counters_dist_log2 = s.counters_dist_log2 ∧
    (s.count stop).1.counters_size = s.counters_size := by
  rcases hr : countBuckets s.counters s.counters_dist_log2 stop
      s.counters_i s.counters_count s.counters_stop (s.prev_stop + 1) s.count_ with
    ⟨i, sum, cstop, start, cnt0⟩
  unfold Sieve.count
  rw [hr]
  exact ⟨rfl, rfl, rfl, rfl, rfl, rfl, rfl⟩

/-- The bit-level invariant survives any operation sequence (the `count`
queries do not touch the bit-level state, monotone or not). -/
theorem BitsInv.run {s : Sieve} (hB : BitsInv s) (ops : List SieveOp) :
    BitsInv (Sieve.run s ops).1 := by
  induction ops generalizing s with
  | nil => exact hB
  | cons op ops ih =>
    cases op with
    | cross p =>
      obtain ⟨hB', _, _, _, _, _, _, _, _⟩ := Sieve.cross_off_count_spec hB p
      exact ih hB'
    | query st =>
      obtain ⟨hbits, _, hsize, htc, hcnts, hlog, hcsize⟩ := Sieve.count_fields_fixed s st
      have hB' : BitsInv (s.count st).1 := by
        constructor
        · rw [hsize]
          exact hB.size_pos
        · rw [hbits, hsize]
          exact hB.bounded
        · rw [hbits]
          exact hB.bit0
        · intro j
          rw [hbits, hcnts, hlog]
          exact hB.counters_ok j
        · rw [htc, hbits, hsize]
          exact hB.total_ok
        · rw [hcsize, hsize, hlog]
          exact hB.counters_size_eq
      show BitsInv (Sieve.run ((s.count st).1) ops).1
      rcases hcnt : s.count st with ⟨s', v⟩
      rw [hcnt] at hB'
      have := ih hB'
      show BitsInv (match Sieve.run s' ops with
        | (s'', vs) => (s'', v :: vs)).1
      rcases hrun : Sieve.run s' ops with ⟨s'', vs⟩
      rw [hrun] at this
      exact this

/-- Telescoping the per-bucket counts yields the popcount of their union. -/
theorem sum_countIco_buckets (bits : Nat → Bool) (d : Nat) :
    ∀ n, (Finset.range n).sum (fun j => countIco bits (j * d) ((j + 1) * d)) =
      countIco bits 0 (n * d) := by
  intro n
  induction n with
  | zero =>
    rw [Nat.zero_mul]
    simp [countIco]
  | succ n ih =>
    rw [Finset.sum_range_succ, ih]
    rw [← countIco_split bits (Nat.zero_le _) (Nat.mul_le_mul_right d (Nat.le_succ n))]

/-- The counters array always sums to the popcount of the whole sieve. -/
theorem sum_counters_eq_popcount {s : Sieve} (hB : BitsInv s) :
    (Finset.range s.counters_size).sum s.counters =
      popcountBelow s.bits s.sieve_size := by
  have hd : 0 < 2 ^ s.counters_dist_log2 := Nat.pos_pow_of_pos _ (by decide)
  have h1 : (Finset.range s.counters_size).sum s.counters =
      (Finset.range s.counters_size).sum
        (fun j => countIco s.bits (j * 2 ^ s.counters_dist_log2)
          ((j + 1) * 2 ^ s.counters_dist_log2)) :=
    Finset.sum_congr rfl (fun j _ => hB.counters_ok j)
  rw [h1, sum_countIco_buckets]
  have hcover : s.sieve_size ≤ s.counters_size * 2 ^ s.counters_dist_log2 := by
    rw [hB.counters_size_eq]
    have hlt := Nat.lt_mul_div_succ s.sieve_size hd
    calc s.sieve_size ≤ 2 ^ s.counters_dist_log2 * (s.sieve_size / 2 ^ s.counters_dist_log2 + 1) :=
      Nat.le_of_lt hlt
    _ = (s.sieve_size / 2 ^ s.counters_dist_log2 + 1) * 2 ^ s.counters_dist_log2 :=
      Nat.mul_comm _ _
  rw [countIco_of_bounded s.bits hB.bounded hcover (Nat.zero_le _),
    popcountBelow_eq_countIco]

end SieveCross

section ClaimC1C2

/-- **C1**: for every sieve state reachable by `pre_sieve` followed by any
interleaving of `cross_off_count` and `count` operations, and for every
monotonically non-decreasing sequence of in-range stop arguments within the
segment, `Sieve::count(stop)` returns exactly the number of 1-bits in the
sieve bit array at positions `0` through `stop` inclusive (it agrees with
the brute-force popcount reference `specRun` on every query). -/
theorem c1_count_agrees_with_popcount
    (primes : List Nat) (c low size k : Nat) (ops : List SieveOp)
    (hlow : low % 2 = 0) (hsize : 0 < size)
    (hmono : List.Chain' (· ≤ ·) (stopsOf ops))
    (hbound : ∀ st ∈ stopsOf ops, st < size) :
    (Sieve.run (Sieve.pre_sieve primes c low size k) ops).2 =
      specRun low size (preSieveBits primes c low size) ops := by
  obtain ⟨hB, hC⟩ := Sieve.pre_sieve_spec primes c low size k hlow hsize
  have hchain : List.Chain' (· ≤ ·)
      ((Sieve.pre_sieve primes c low size k).prev_stop :: stopsOf ops) :=
    List.chain'_cons'.mpr ⟨fun b _ => Nat.zero_le b, hmono⟩
  exact Sieve.run_spec ops _ hB hC hchain hbound

/-- Witness for C1: a concrete run (segment `[0, 8)`, wheel primes up to 3,
a count, a cross-off of 3 and another count) matching the brute-force
reference. -/
theorem c1_witness :
    ((0 : Nat) % 2 = 0 ∧ (0 : Nat) < 8 ∧
      List.Chain' (· ≤ ·) (stopsOf [SieveOp.query 3, SieveOp.cross 3, SieveOp.query 5]) ∧
      ∀ st ∈ stopsOf [SieveOp.query 3, SieveOp.cross 3, SieveOp.query 5], st < 8) ∧
    (Sieve.run (Sieve.pre_sieve [0, 2, 3] 1 0 8 1)
        [SieveOp.query 3, SieveOp.cross 3, SieveOp.query 5]).2 =
      specRun 0 8 (preSieveBits [0, 2, 3] 1 0 8)
        [SieveOp.query 3, SieveOp.cross 3, SieveOp.query 5] :=
  ⟨⟨by decide, by decide,
    by show List.Chain' (· ≤ ·) [3, 5]; simp,
    by decide⟩,
   c1_count_agrees_with_popcount [0, 2, 3] 1 0 8 1
     [SieveOp.query 3, SieveOp.cross 3, SieveOp.query 5]
     (by decide) (by decide)
     (by show List.Chain' (· ≤ ·) [3, 5]; simp)
     (by decide)⟩

/-- **C2**: after any sequence of `pre_sieve`, `cross_off_count`, `count`
operations on one sieve segment, `Σ counters = total_count = popcount` of
the sieve bit array; and each cross-off step on a still-set bit decrements
`total_count` and exactly the one counter owning that bit, clearing it. -/
theorem c2_total_count_eq_sum_counters_eq_popcount
    (primes : List Nat) (c low size k : Nat) (ops : List SieveOp)
    (hlow : low % 2 = 0) (hsize : 0 < size) :
    ((Finset.range (Sieve.run (Sieve.pre_sieve primes c low size k) ops).1.counters_size).sum
        (Sieve.run (Sieve.pre_sieve primes c low size k) ops).1.counters =
      (Sieve.run (Sieve.pre_sieve primes c low size k) ops).1.total_count ∧
     (Sieve.run (Sieve.pre_sieve primes c low size k) ops).1.total_count =
      popcountBelow (Sieve.run (Sieve.pre_sieve primes c low size k) ops).1.bits
        (Sieve.run (Sieve.pre_sieve primes c low size k) ops).1.sieve_size) ∧
    (∀ (s : Sieve) (i : Nat), s.bits i = true →
      (s.cross_off_bit i).total_count = s.total_count - 1 ∧
      (s.cross_off_bit i).counters (i / 2 ^ s.counters_dist_log2) =
        s.counters (i / 2 ^ s.counters_dist_log2) - 1 ∧
      (∀ j, j ≠ i / 2 ^ s.counters_dist_log2 →
        (s.cross_off_bit i).counters j = s.counters j) ∧
      (s.cross_off_bit i).bits i = false) := by
  constructor
  · have hB := (Sieve.pre_sieve_spec primes c low size k hlow hsize).1
    have hBrun := hB.run ops
    exact ⟨(sum_counters_eq_popcount hBrun).trans hBrun.total_ok.symm, hBrun.total_ok⟩
  · intro s i hbit
    have hshift : i >>> s.counters_dist_log2 = i / 2 ^ s.counters_dist_log2 :=
      Nat.shiftRight_eq_div_pow i s.counters_dist_log2
    refine ⟨?_, ?_, ?_, ?_⟩
    · show s.total_count - (if s.bits i then 1 else 0) = s.total_count - 1
      rw [hbit]
      simp
    · show (if i / 2 ^ s.counters_dist_log2 = i >>> s.counters_dist_log2
          then s.counters (i / 2 ^ s.counters_dist_log2) - (if s.bits i then 1 else 0)
          else s.counters (i / 2 ^ s.counters_dist_log2)) = _
      rw [hbit, if_pos hshift.symm]
      simp
    · intro j hj
      show (if j = i >>> s.counters_dist_log2
          then s.counters j - (if s.bits i then 1 else 0) else s.counters j) = s.counters j
      rw [if_neg (by rw [hshift]; exact hj)]
    · show (if i = i then false else s.bits i) = false
      rw [if_pos rfl]

/-- Witness for C2 at the same concrete run as C1. -/
theorem c2_witness :
    ((0 : Nat) % 2 = 0 ∧ (0 : Nat) < 8) ∧
    (((Finset.range (Sieve.run (Sieve.pre_sieve [0, 2, 3] 1 0 8 1)
          [SieveOp.query 3, SieveOp.cross 3]).1.counters_size).sum
        (Sieve.run (Sieve.pre_sieve [0, 2, 3] 1 0 8 1)
          [SieveOp.query 3, SieveOp.cross 3]).1.counters =
      (Sieve.run (Sieve.pre_sieve [0, 2, 3] 1 0 8 1)
          [SieveOp.query 3, SieveOp.cross 3]).1.total_count ∧
     (Sieve.run (Sieve.pre_sieve [0, 2, 3] 1 0 8 1)
          [SieveOp.query 3, SieveOp.cross 3]).1.total_count =
      popcountBelow (Sieve.run (Sieve.pre_sieve [0, 2, 3] 1 0 8 1)
          [SieveOp.query 3, SieveOp.cross 3]).1.bits
        (Sieve.run (Sieve.pre_sieve [0, 2, 3] 1 0 8 1)
          [SieveOp.query 3, SieveOp.cross 3]).1.sieve_size) ∧
    (∀ (s : Sieve) (i : Nat), s.bits i = true →
      (s.cross_off_bit i).total_count = s.total_count - 1 ∧
      (s.cross_off_bit i).counters (i / 2 ^ s.counters_dist_log2) =
        s.counters (i / 2 ^ s.counters_dist_log2) - 1 ∧
      (∀ j, j ≠ i / 2 ^ s.counters_dist_log2 →
        (s.cross_off_bit i).counters j = s.counters j) ∧
      (s.cross_off_bit i).bits i = false)) :=
  ⟨⟨by decide, by decide⟩,
   c2_total_count_eq_sum_counters_eq_popcount [0, 2, 3] 1 0 8 1
     [SieveOp.query 3, SieveOp.cross 3] (by decide) (by decide)⟩

end ClaimC1C2

section ClaimC7

/-- Counterexample to **C7** as stated: the claim's thresholds are a
10-second low target and a 60-second high target, so at 30 seconds of
elapsed time the thread distance should stay unchanged; `balanceLoad`
(P2.cpp lines 63-66) instead doubles it, because the code doubles whenever
`seconds < 60`. -/
theorem c7_counterexample :
    balanceLoad (2 ^ 23) 0 (2 ^ 60) 1 30 = 2 ^ 24 ∧
    ¬ ((30 : ℚ) < 10) ∧ ¬ ((30 : ℚ) > 60) ∧ (2 ^ 24 : Int) ≠ 2 ^ 23 := by
  refine ⟨?_, by norm_num, by norm_num, by norm_num⟩
  norm_num [balanceLoad, ceil_div, in_between]

/-- **C7 (amended)**: after every batch of the P2 kernel, `balanceLoad`
doubles the thread sieving distance when the batch's elapsed wall time is
below 60 seconds, halves it when the elapsed time exceeds 60 seconds,
leaves it unchanged at exactly 60 seconds, and clamps the result with
`in_between`, so that whenever `2^23 ≤ ceil((z - low)/threads)` the
resulting distance lies in `[2^23, ceil((z - low)/threads)]`. -/
theorem c7_balance_load_rule (thread_distance low z threads : Int) (seconds : ℚ) :
    balanceLoad thread_distance low z threads seconds =
      in_between (2 ^ 23)
        (if seconds < 60 then thread_distance * 2
         else if seconds > 60 then thread_distance / 2
         else thread_distance)
        (ceil_div (z - low) threads) ∧
    (2 ^ 23 ≤ ceil_div (z - low) threads →
      2 ^ 23 ≤ balanceLoad thread_distance low z threads seconds ∧
      balanceLoad thread_distance low z threads seconds ≤ ceil_div (z - low) threads) := by
  have hmain : balanceLoad thread_distance low z threads seconds =
      in_between (2 ^ 23)
        (if seconds < 60 then thread_distance * 2
         else if seconds > 60 then thread_distance / 2
         else thread_distance)
        (ceil_div (z - low) threads) := by
    unfold balanceLoad
    by_cases h1 : seconds < 60
    · have h2 : ¬ seconds > 60 := by linarith
      simp only [if_pos h1, if_neg h2]
    · by_cases h2 : seconds > 60
      · simp only [if_neg h1, if_pos h2]
      · simp only [if_neg h1, if_neg h2]
  refine ⟨hmain, ?_⟩
  intro hge
  rw [hmain]
  unfold in_between
  set d := (if seconds < 60 then thread_distance * 2
    else if seconds > 60 then thread_distance / 2 else thread_distance) with hd
  by_cases hlo : d < 2 ^ 23
  · simp only [if_pos hlo]
    omega
  · simp only [if_neg hlo]
    by_cases hhi : d > ceil_div (z - low) threads
    · simp only [if_pos hhi]
      omega
    · simp only [if_neg hhi]
      omega

/-- Witness for the amended C7 clamp at a concrete input. -/
theorem c7_witness :
    ((2 : Int) ^ 23 ≤ ceil_div ((2 : Int) ^ 60 - 0) 1) ∧
    ((2 : Int) ^ 23 ≤ balanceLoad (2 ^ 23) 0 (2 ^ 60) 1 30 ∧
      balanceLoad (2 ^ 23) 0 (2 ^ 60) 1 30 ≤ ceil_div ((2 : Int) ^ 60 - 0) 1) :=
  ⟨by decide,
   (c7_balance_load_rule (2 ^ 23) 0 (2 ^ 60) 1 30).2 (by decide)⟩

end ClaimC7

section ClaimC8

/-- **C8**: a kernel's resume restores the saved fields exactly when the
backup document's header matches the invocation; on a mismatch it reports
`false` (B/Phi0) and leaves every output parameter unchanged.  Stated for
the B kernel (full round trip through its backup writer, plus a mismatched
header), the P2 kernel and the Phi0 kernel. -/
theorem c8_resume_restores_iff_header_matches
    (j : JsonB) (jp : JsonP2) (jf : JsonPhi0)
    (x y z k low plm dist low0 plm0 dist0 : Nat)
    (sum sum0 pix p2v : Int) (time now secs : ℚ) :
    (resumeB j x y low plm dist sum time now =
      if is_resumeB j x y then
        (true, j.low, j.pi_low_minus_1, j.thread_distance, j.sum, now - j.seconds)
      else (false, low, plm, dist, sum, time)) ∧
    ((resumeB j x y low plm dist sum time now).1 = is_resumeB j x y) ∧
    (resumeB (backupB x y low plm dist sum secs) x y low0 plm0 dist0 sum0 time now =
      (true, low, plm, dist, sum, now - secs)) ∧
    (resumeB (backupB x y low plm dist sum secs) (x + 1) y low0 plm0 dist0 sum0 time now =
      (false, low0, plm0, dist0, sum0, time)) ∧
    (resumeP2 jp x y z low dist pix p2v time now =
      if is_resumeP2 jp x y z then
        (jp.low, jp.thread_distance, jp.pix_total, jp.p2, now - jp.seconds)
      else (low, dist, pix, p2v, time)) ∧
    (resumePhi0 jf x y z k sum time now =
      if is_resumePhi0 jf x y z k then (true, jf.sum, now - jf.seconds)
      else (false, sum, time)) := by
  refine ⟨?_, ?_, ?_, ?_, ?_, ?_⟩
  · unfold resumeB
    by_cases h : is_resumeB j x y
    · rw [if_pos h]
    · rw [if_neg h]
  · unfold resumeB
    by_cases h : is_resumeB j x y
    · simp [h]
    · simp only [Bool.not_eq_true] at h
      simp [h]
  · have hmatch : is_resumeB (backupB x y low plm dist sum secs) x y = true := by
      unfold is_resumeB backupB
      simp
    unfold resumeB
    rw [if_pos hmatch]
    rfl
  · have hmism : is_resumeB (backupB x y low plm dist sum secs) (x + 1) y = false := by
      unfold is_resumeB backupB
      simp
    unfold resumeB
    rw [hmism]
    simp
  · unfold resumeP2
    by_cases h : is_resumeP2 jp x y z
    · rw [if_pos h]
    · rw [if_neg h]
  · unfold resumePhi0
    by_cases h : is_resumePhi0 jf x y z k
    · rw [if_pos h]
    · rw [if_neg h]

end ClaimC8

section ClaimC6

/-- Counterexample to **C6** as stated: in the square-free-leaf loop with
`x = 44`, `y = 9`, segment `[0, 4)` and sieving prime `3` (index `b = 2`,
within the regime since `b ≤ pi[isqrt(y)] = 2` and `prime < max_m`), the
leaves `m = 7` and `m = 5` produce the stop values `⌊44/21⌋ = 2` and
`⌊44/15⌋ = 2`: the sequence of stops is `[2, 2]`, which is monotone
non-decreasing but not strictly increasing. -/
theorem c6_counterexample :
    (primesUpTo 9).getD 2 0 = 3 ∧
    1 + 1 ≤ primePi (Nat.sqrt 9) ∧
    ¬ (3 ≥ min (44 / (3 * 1)) 9) ∧
    leafStops1 44 9 0 4 3 = [2, 2] ∧
    ¬ List.Chain' (· < ·) (leafStops1 44 9 0 4 3) := by
  have hsq : Nat.sqrt 9 = 3 := by
    rw [show (9 : Nat) = 3 * 3 from rfl, Nat.sqrt_eq]
  refine ⟨by decide, ?_, by decide, by decide, ?_⟩
  · rw [hsq]
    decide
  · intro h
    rw [show leafStops1 44 9 0 4 3 = [2, 2] from by decide] at h
    exact absurd (List.chain'_cons.mp h).1 (by omega)

/-- Division by a larger factor gives a smaller quotient (with the
degenerate zero-divisor cases handled). -/
theorem div_antitone_stop {x low p a b : Nat} (hb : 0 < b) (hab : b ≤ a) :
    x / (p * a) - low ≤ x / (p * b) - low := by
  rcases Nat.eq_zero_or_pos p with hp | hp
  · subst hp
    simp
  · have hpos : 0 < p * b := Nat.mul_pos hp hb
    have hle : p * b ≤ p * a := Nat.mul_le_mul_left p hab
    exact Nat.sub_le_sub_right (Nat.div_le_div_left hle hpos) low

/-- **C6 (amended)**: within one inner loop of the hard-leaves engine over
a fixed segment and fixed prime, the successive stop values `x/(p·m)` (as
`m` runs downward over the square-free leaf range) and `x/(p·primes[l])`
(as `l` runs downward in the two-prime regime, over a sorted primes array)
form a monotone non-decreasing sequence, so every stop argument passed to
`sieve.count` satisfies the monotone non-decreasing cursor precondition. -/
theorem c6_leaf_stops_monotone (x y low high prime : Nat) (primes : List Nat)
    (hsorted : List.Sorted (· ≤ ·) primes) :
    List.Chain' (· ≤ ·) (leafStops1 x y low high prime) ∧
    List.Chain' (· ≤ ·) (leafStops2 primes x y low high prime) := by
  constructor
  · unfold leafStops1
    refine List.Pairwise.chain' (List.pairwise_map.mpr ?_)
    have hdesc : (descRange (max (x / (prime * high)) (y / prime))
        (min (x / (prime * max low 1)) y)).Pairwise (· > ·) := by
      unfold descRange
      rw [List.pairwise_reverse]
      exact List.pairwise_lt_range' _ _
    refine List.Pairwise.imp_of_mem ?_ (hdesc.sublist (List.filter_sublist _))
    intro a b ha hb hab
    have hb' : 0 < b := by
      have hm := (List.mem_filter.mp hb).1
      unfold descRange at hm
      rw [List.mem_reverse, List.mem_range'_1] at hm
      exact Nat.lt_of_lt_of_le (Nat.succ_pos _) hm.1
    exact div_antitone_stop hb' (Nat.le_of_lt hab)
  · unfold leafStops2
    by_cases hgoto : prime ≥ primes.getD
        (primePi (min (x / (prime * max low 1)) y)) 0
    · rw [if_pos hgoto]
      exact List.chain'_nil
    · rw [if_neg hgoto]
      refine List.Pairwise.chain' (List.pairwise_map.mpr ?_)
      have hdesc : (twoPrimeLs primes (max (x / (prime * high)) prime)
          (primePi (min (x / (prime * max low 1)) y))).Pairwise (· > ·) := by
        unfold twoPrimeLs
        refine List.Pairwise.sublist (List.takeWhile_sublist _) ?_
        rw [List.pairwise_reverse]
        exact List.pairwise_lt_range _
      refine List.Pairwise.imp_of_mem ?_ hdesc
      intro a b ha hb hab
      have hvb : max (x / (prime * high)) prime < primes.getD b 0 := by
        have := List.mem_takeWhile_imp hb
        rwa [decide_eq_true_eq] at this
      have hva : max (x / (prime * high)) prime < primes.getD a 0 := by
        have := List.mem_takeWhile_imp ha
        rwa [decide_eq_true_eq] at this
      have hbpos : 0 < primes.getD b 0 := by omega
      have hapos : 0 < primes.getD a 0 := by omega
      have halen : a < primes.length := by
        by_contra hc
        push_neg at hc
        rw [List.getD_eq_default _ _ hc] at hapos
        omega
      have hblen : b < primes.length := by
        by_contra hc
        push_neg at hc
        rw [List.getD_eq_default _ _ hc] at hbpos
        omega
      have hmono : primes.getD b 0 ≤ primes.getD a 0 := by
        rw [List.getD_eq_get _ _ hblen, List.getD_eq_get _ _ halen]
        exact hsorted.rel_get_of_le (by exact Nat.le_of_lt hab)
      exact div_antitone_stop hbpos hmono

/-- Witness for the amended C6 at the counterexample's parameters. -/
theorem c6_witness :
    List.Sorted (· ≤ ·) (primesUpTo 9) ∧
    (List.Chain' (· ≤ ·) (leafStops1 44 9 0 4 3) ∧
     List.Chain' (· ≤ ·) (leafStops2 (primesUpTo 9) 44 9 0 4 3)) :=
  ⟨by
    show List.Sorted (· ≤ ·) [0, 2, 3, 5, 7]
    simp [List.sorted_cons],
   c6_leaf_stops_monotone 44 9 0 4 3 (primesUpTo 9)
     (by
       show List.Sorted (· ≤ ·) [0, 2, 3, 5, 7]
       simp [List.sorted_cons])⟩

end ClaimC6

section ClaimC5

/-- Transport of the bit-level invariant along equal fields. -/
theorem BitsInv.of_fields {s t : Sieve} (hB : BitsInv s)
    (hbits : t.bits = s.bits) (hsize : t.sieve_size = s.sieve_size)
    (htot : t.total_count = s.total_count) (hcnt : t.counters = s.counters)
    (hlog : t.counters_dist_log2 = s.counters_dist_log2)
    (hcsize : t.counters_size = s.counters_size) : BitsInv t := by
  constructor
  · rw [hsize]; exact hB.size_pos
  · rw [hbits, hsize]; exact hB.bounded
  · rw [hbits]; exact hB.bit0
  · intro j
    rw [hbits, hcnt, hlog]
    exact hB.counters_ok j
  · rw [htot, hbits, hsize]
    exact hB.total_ok
  · rw [hcsize, hsize, hlog]
    exact hB.counters_size_eq

theorem mod_dvd_iff (p n : Nat) : n % p = 0 ↔ p ∣ n :=
  ⟨Nat.dvd_of_mod_eq_zero, Nat.mod_eq_zero_of_dvd⟩

/-- Crossing off the odd multiples of `primes[b]` from the survivors of
`primes[1..b-1]` yields exactly the survivors of `primes[1..b]`. -/
theorem specCross_afterBits (primes : List Nat) (low size b : Nat) (hb : 1 ≤ b) :
    specCross low size (primes.getD b 0) (afterBits primes low size (b - 1)) =
      afterBits primes low size b := by
  funext i
  unfold specCross afterBits
  by_cases hcross : i < size ∧ (low + i) % primes.getD b 0 = 0 ∧ (low + i) % 2 = 1
  · rw [if_pos hcross]
    symm
    rw [decide_eq_false_iff_not]
    rintro ⟨h1, h2, h3⟩
    exact h3 b le_rfl hb ((mod_dvd_iff _ _).mp hcross.2.1)
  · rw [if_neg hcross]
    apply decide_eq_decide.mpr
    constructor
    · rintro ⟨h1, h2, h3⟩
      refine ⟨h1, h2, fun t ht ht1 => ?_⟩
      rcases Nat.lt_or_ge t b with hlt | hge
      · exact h3 t (by omega) ht1
      · have hteq : t = b := by omega
        subst hteq
        intro hdvd
        exact hcross ⟨h1, (mod_dvd_iff _ _).mpr hdvd, h2⟩
    · rintro ⟨h1, h2, h3⟩
      exact ⟨h1, h2, fun t ht ht1 => h3 t (by omega) ht1⟩

/-- Unfolding of one step of the square-free inner leaf loop. -/
theorem S2_leafLoop1_cons (x low prime phi_b m : Nat) (l : List Nat)
    (sv : Sieve) (s2 : Int) (sv' : Sieve) (cnt : Nat)
    (hc : sv.count (x / (prime * m) - low) = (sv', cnt)) :
    S2_leafLoop1 x low prime phi_b (m :: l) sv s2 =
      if mu m ≠ 0 ∧ prime < lpf m then
        S2_leafLoop1 x low prime phi_b l sv'
          (s2 - mu m * ((phi_b : Int) + (cnt : Int)))
      else S2_leafLoop1 x low prime phi_b l sv s2 := by
  unfold S2_leafLoop1
  rw [List.foldl_cons]
  show List.foldl _ (if mu m ≠ 0 ∧ prime < lpf m then
      match sv.count (x / (prime * m) - low) with
      | (sv1, cnt1) => (sv1, s2 - mu m * ((phi_b : Int) + (cnt1 : Int)))
    else (sv, s2)) l = _
  by_cases hcond : mu m ≠ 0 ∧ prime < lpf m
  · rw [if_pos hcond, if_pos hcond, hc]
  · rw [if_neg hcond, if_neg hcond]

/-- The square-free inner leaf loop only moves the counting cursor: the
bits, the totals and the segment parameters are left unchanged. -/
theorem S2_leafLoop1_fixed (x low prime phi_b : Nat) (mList : List Nat) :
    ∀ (sv : Sieve) (s2 : Int),
      (S2_leafLoop1 x low prime phi_b mList sv s2).1.bits = sv.bits ∧
      (S2_leafLoop1 x low prime phi_b mList sv s2).1.low = sv.low ∧
      (S2_leafLoop1 x low prime phi_b mList sv s2).1.sieve_size = sv.sieve_size ∧
      (S2_leafLoop1 x low prime phi_b mList sv s2).1.total_count = sv.total_count ∧
      (S2_leafLoop1 x low prime phi_b mList sv s2).1.counters = sv.counters ∧
      (S2_leafLoop1 x low prime phi_b mList sv s2).1.counters_dist_log2 =
        sv.counters_dist_log2 ∧
      (S2_leafLoop1 x low prime phi_b mList sv s2).1.counters_size = sv.counters_size := by
  induction mList with
  | nil =>
    intro sv s2
    exact ⟨rfl, rfl, rfl, rfl, rfl, rfl, rfl⟩
  | cons m l ih =>
    intro sv s2
    rcases hcq : sv.count (x / (prime * m) - low) with ⟨sv', cnt⟩
    rw [S2_leafLoop1_cons x low prime phi_b m l sv s2 sv' cnt hcq]
    by_cases hcond : mu m ≠ 0 ∧ prime < lpf m
    · rw [if_pos hcond]
      obtain ⟨f1, f2, f3, f4, f5, f6, f7⟩ :=
        Sieve.count_fields_fixed sv (x / (prime * m) - low)
      rw [hcq] at f1 f2 f3 f4 f5 f6 f7
      obtain ⟨g1, g2, g3, g4, g5, g6, g7⟩ :=
        ih sv' (s2 - mu m * ((phi_b : Int) + (cnt : Int)))
      exact ⟨g1.trans f1, g2.trans f2, g3.trans f3, g4.trans f4, g5.trans f5,
        g6.trans f6, g7.trans f7⟩
    · rw [if_neg hcond]
      exact ih sv s2

/-- Unfolding of one step of the two-prime inner leaf loop. -/
theorem S2_leafLoop2_cons (x low prime phi_b : Nat) (primes : List Nat) (l : Nat)
    (ls : List Nat) (sv : Sieve) (s2 : Int) (sv' : Sieve) (cnt : Nat)
    (hc : sv.count (x / (prime * primes.getD l 0) - low) = (sv', cnt)) :
    S2_leafLoop2 x low prime phi_b primes (l :: ls) sv s2 =
      S2_leafLoop2 x low prime phi_b primes ls sv'
        (s2 + ((phi_b : Int) + (cnt : Int))) := by
  unfold S2_leafLoop2
  rw [List.foldl_cons]
  show List.foldl _ (match sv.count (x / (prime * primes.getD l 0) - low) with
    | (sv1, cnt1) => (sv1, s2 + ((phi_b : Int) + (cnt1 : Int)))) ls = _
  rw [hc]

/-- The two-prime inner leaf loop only moves the counting cursor. -/
theorem S2_leafLoop2_fixed (x low prime phi_b : Nat) (primes : List Nat)
    (lList : List Nat) :
    ∀ (sv : Sieve) (s2 : Int),
      (S2_leafLoop2 x low prime phi_b primes lList sv s2).1.bits = sv.bits ∧
      (S2_leafLoop2 x low prime phi_b primes lList sv s2).1.low = sv.low ∧
      (S2_leafLoop2 x low prime phi_b primes lList sv s2).1.sieve_size = sv.sieve_size ∧
      (S2_leafLoop2 x low prime phi_b primes lList sv s2).1.total_count = sv.total_count ∧
      (S2_leafLoop2 x low prime phi_b primes lList sv s2).1.counters = sv.counters ∧
      (S2_leafLoop2 x low prime phi_b primes lList sv s2).1.counters_dist_log2 =
        sv.counters_dist_log2 ∧
      (S2_leafLoop2 x low prime phi_b primes lList sv s2).1.counters_size =
        sv.counters_size := by
  induction lList with
  | nil =>
    intro sv s2
    exact ⟨rfl, rfl, rfl, rfl, rfl, rfl, rfl⟩
  | cons l ls ih =>
    intro sv s2
    rcases hcq : sv.count (x / (prime * primes.getD l 0) - low) with ⟨sv', cnt⟩
    rw [S2_leafLoop2_cons x low prime phi_b primes l ls sv s2 sv' cnt hcq]
    obtain ⟨f1, f2, f3, f4, f5, f6, f7⟩ :=
      Sieve.count_fields_fixed sv (x / (prime * primes.getD l 0) - low)
    rw [hcq] at f1 f2 f3 f4 f5 f6 f7
    obtain ⟨g1, g2, g3, g4, g5, g6, g7⟩ :=
      ih sv' (s2 + ((phi_b : Int) + (cnt : Int)))
    exact ⟨g1.trans f1, g2.trans f2, g3.trans f3, g4.trans f4, g5.trans f5,
      g6.trans f6, g7.trans f7⟩

/-- Evolution of `phi` through the square-free-leaf regime: starting from a
sieve whose bits are the survivors of `primes[1..b-1]`, every processed
index `b'` receives exactly the popcount of the survivors of
`primes[1..b'-1]` (the `total_count` read BEFORE `cross_off_count` of
`primes[b']`), the bit state advances accordingly, indices outside the
processed window keep their `phi`, and the no-goto conditions characterize
how far the loop runs. -/
theorem S2_loop1_phi (x y : Nat) (primes : List Nat) (pi_sqrty low high size : Nat) :
    ∀ (n b : Nat) (sv : Sieve) (phi : Nat → Nat) (s2 : Int),
      pi_sqrty + 1 - b ≤ n → 1 ≤ b →
      BitsInv sv → sv.bits = afterBits primes low size (b - 1) →
      sv.low = low → sv.sieve_size = size →
      ∃ sv1 phi1 s21 b1 g,
        S2_loop1 x y primes pi_sqrty low high b sv phi s2 = (sv1, phi1, s21, b1, g) ∧
        b ≤ b1 ∧ BitsInv sv1 ∧
        sv1.bits = afterBits primes low size (b1 - 1) ∧
        sv1.low = low ∧ sv1.sieve_size = size ∧
        (∀ b', b' < b → phi1 b' = phi b') ∧
        (∀ b', b1 ≤ b' → phi1 b' = phi b') ∧
        (∀ b', b ≤ b' → b' < b1 →
          phi1 b' = phi b' + popcountBelow (afterBits primes low size (b' - 1)) size) ∧
        (∀ b0, b ≤ b0 → b0 ≤ pi_sqrty →
          (∀ t, b ≤ t → t ≤ b0 → noGoto1 x y low primes t) → b0 < b1) ∧
        (g = false → b1 = max b (pi_sqrty + 1)) ∧
        ((∀ t, b ≤ t → t ≤ pi_sqrty → noGoto1 x y low primes t) → g = false) := by
  intro n
  induction n with
  | zero =>
    intro b sv phi s2 hfuel hb1 hB hbits hlo hsz
    have hgt : ¬ b ≤ pi_sqrty := by omega
    refine ⟨sv, phi, s2, b, false, ?_, le_refl b, hB, hbits, hlo, hsz,
      fun b' _ => rfl, fun b' _ => rfl,
      fun b' h1 h2 => absurd h2 (Nat.not_lt.mpr h1),
      fun b0 hb0 hb0' _ => absurd (Nat.le_trans hb0 hb0') hgt,
      fun _ => by omega, fun _ => rfl⟩
    rw [S2_loop1, if_neg hgt]
  | succ n ih =>
    intro b sv phi s2 hfuel hb1 hB hbits hlo hsz
    by_cases hble : b ≤ pi_sqrty
    · by_cases hng : primes.getD b 0 ≥ min (x / (primes.getD b 0 * max low 1)) y
      · refine ⟨sv, phi, s2, b, true, ?_, le_refl b, hB, hbits, hlo, hsz,
          fun b' _ => rfl, fun b' _ => rfl,
          fun b' h1 h2 => absurd h2 (Nat.not_lt.mpr h1),
          ?_, fun h => Bool.noConfusion h, ?_⟩
        · rw [S2_loop1, if_pos hble]
          show (if primes.getD b 0 ≥ min (x / (primes.getD b 0 * max low 1)) y
              then (sv, phi, s2, b, true)
              else _) = (sv, phi, s2, b, true)
          rw [if_pos hng]
        · intro b0 hb0 _ hall
          have hg := hall b (le_refl b) hb0
          unfold noGoto1 at hg
          omega
        · intro hall
          have hg := hall b (le_refl b) hble
          unfold noGoto1 at hg
          omega
      · rcases hleaf : S2_leafLoop1 x low (primes.getD b 0) (phi b)
            (descRange (max (x / (primes.getD b 0 * high)) (y / primes.getD b 0))
              (min (x / (primes.getD b 0 * max low 1)) y)) sv s2 with ⟨svL, s2L⟩
        obtain ⟨f1, f2, f3, f4, f5, f6, f7⟩ :=
          S2_leafLoop1_fixed x low (primes.getD b 0) (phi b)
            (descRange (max (x / (primes.getD b 0 * high)) (y / primes.getD b 0))
              (min (x / (primes.getD b 0 * max low 1)) y)) sv s2
        rw [hleaf] at f1 f2 f3 f4 f5 f6 f7
        have hBL : BitsInv svL := BitsInv.of_fields hB f1 f3 f4 f5 f6 f7
        have hbitsL : svL.bits = afterBits primes low size (b - 1) := f1.trans hbits
        have hlowL : svL.low = low := f2.trans hlo
        have hszL : svL.sieve_size = size := f3.trans hsz
        obtain ⟨hBn, _, hbn, hlon, hszn, _, _, _, _⟩ :=
          Sieve.cross_off_count_spec hBL (primes.getD b 0)
        have hbitsn : (svL.cross_off_count (primes.getD b 0)).bits =
            afterBits primes low size b := by
          rw [hbn, hlowL, hszL, hbitsL]
          exact specCross_afterBits primes low size b hb1
        have hlon' : (svL.cross_off_count (primes.getD b 0)).low = low :=
          hlon.trans hlowL
        have hszn' : (svL.cross_off_count (primes.getD b 0)).sieve_size = size :=
          hszn.trans hszL
        obtain ⟨sv1, phi1, s21, b1, g, heq, hble1, hB1, hbits1, hlo1, hsz1,
            hlow', hhigh', hproc, hprocsuf, hgmax, hgsuf⟩ :=
          ih (b + 1) (svL.cross_off_count (primes.getD b 0))
            (fun b' => if b' = b then phi b + svL.get_total_count else phi b') s2L
            (by omega) (by omega) hBn hbitsn hlon' hszn'
        refine ⟨sv1, phi1, s21, b1, g, ?_, by omega, hB1, hbits1, hlo1, hsz1,
          ?_, ?_, ?_, ?_, ?_, ?_⟩
        · rw [S2_loop1, if_pos hble]
          show (if primes.getD b 0 ≥ min (x / (primes.getD b 0 * max low 1)) y
              then (sv, phi, s2, b, true)
              else
                match S2_leafLoop1 x low (primes.getD b 0) (phi b)
                    (descRange (max (x / (primes.getD b 0 * high)) (y / primes.getD b 0))
                      (min (x / (primes.getD b 0 * max low 1)) y)) sv s2 with
                | (svv, s2v) =>
                    S2_loop1 x y primes pi_sqrty low high (b + 1)
                      (svv.cross_off_count (primes.getD b 0))
                      (fun b' => if b' = b then phi b + svv.get_total_count else phi b')
                      s2v) = (sv1, phi1, s21, b1, g)
          rw [if_neg hng, hleaf]
          exact heq
        · intro b' hb'
          rw [hlow' b' (by omega)]
          rw [if_neg (by omega : ¬ b' = b)]
        · intro b' hb'
          rw [hhigh' b' hb']
          rw [if_neg (by omega : ¬ b' = b)]
        · intro b' h1 h2
          rcases Nat.eq_or_lt_of_le h1 with rfl | hlt
          · rw [hlow' b (by omega), if_pos rfl]
            have hg4 : svL.get_total_count = sv.total_count := f4
            have htot : sv.total_count =
                popcountBelow (afterBits primes low size (b - 1)) size := by
              rw [hB.total_ok, hbits, hsz]
            rw [hg4, htot]
          · rw [hproc b' (by omega) h2]
            rw [if_neg (by omega : ¬ b' = b)]
        · intro b0 hb0 hb0' hall
          rcases Nat.eq_or_lt_of_le hb0 with rfl | hlt
          · omega
          · exact hprocsuf b0 (by omega) hb0' (fun t ht ht' => hall t (by omega) ht')
        · intro hg
          have hm := hgmax hg
          omega
        · intro hall
          exact hgsuf (fun t ht ht' => hall t (by omega) ht')
    · refine ⟨sv, phi, s2, b, false, ?_, le_refl b, hB, hbits, hlo, hsz,
        fun b' _ => rfl, fun b' _ => rfl,
        fun b' h1 h2 => absurd h2 (Nat.not_lt.mpr h1),
        fun b0 hb0 hb0' _ => absurd (Nat.le_trans hb0 hb0') hble,
        fun _ => by omega, fun _ => rfl⟩
      rw [S2_loop1, if_neg hble]

/-- Evolution of `phi` through the two-prime-leaf regime, mirroring
`S2_loop1_phi`: every processed index receives the `total_count` read
BEFORE the `cross_off_count` of its prime. -/
theorem S2_loop2_phi (x y : Nat) (primes : List Nat) (pi_y low high size : Nat) :
    ∀ (n b : Nat) (sv : Sieve) (phi : Nat → Nat) (s2 : Int),
      pi_y - b ≤ n → 1 ≤ b →
      BitsInv sv → sv.bits = afterBits primes low size (b - 1) →
      sv.low = low → sv.sieve_size = size →
      ∃ sv1 phi1 s21 b1 g,
        S2_loop2 x y primes pi_y low high b sv phi s2 = (sv1, phi1, s21, b1, g) ∧
        b ≤ b1 ∧ BitsInv sv1 ∧
        sv1.bits = afterBits primes low size (b1 - 1) ∧
        sv1.low = low ∧ sv1.sieve_size = size ∧
        (∀ b', b' < b → phi1 b' = phi b') ∧
        (∀ b', b1 ≤ b' → phi1 b' = phi b') ∧
        (∀ b', b ≤ b' → b' < b1 →
          phi1 b' = phi b' + popcountBelow (afterBits primes low size (b' - 1)) size) ∧
        (∀ b0, b ≤ b0 → b0 < pi_y →
          (∀ t, b ≤ t → t ≤ b0 → noGoto2 x y low primes t) → b0 < b1) := by
  intro n
  induction n with
  | zero =>
    intro b sv phi s2 hfuel hb1 hB hbits hlo hsz
    have hgt : ¬ b < pi_y := by omega
    refine ⟨sv, phi, s2, b, false, ?_, le_refl b, hB, hbits, hlo, hsz,
      fun b' _ => rfl, fun b' _ => rfl,
      fun b' h1 h2 => absurd h2 (Nat.not_lt.mpr h1),
      fun b0 hb0 hb0' _ => absurd hb0' (by omega)⟩
    rw [S2_loop2, if_neg hgt]
  | succ n ih =>
    intro b sv phi s2 hfuel hb1 hB hbits hlo hsz
    by_cases hblt : b < pi_y
    · by_cases hng : primes.getD b 0 ≥
          primes.getD (primePi (min (x / (primes.getD b 0 * max low 1)) y)) 0
      · refine ⟨sv, phi, s2, b, true, ?_, le_refl b, hB, hbits, hlo, hsz,
          fun b' _ => rfl, fun b' _ => rfl,
          fun b' h1 h2 => absurd h2 (Nat.not_lt.mpr h1), ?_⟩
        · rw [S2_loop2, if_pos hblt]
          show (if primes.getD b 0 ≥
              primes.getD (primePi (min (x / (primes.getD b 0 * max low 1)) y)) 0
              then (sv, phi, s2, b, true)
              else _) = (sv, phi, s2, b, true)
          rw [if_pos hng]
        · intro b0 hb0 _ hall
          have hg := hall b (le_refl b) hb0
          unfold noGoto2 at hg
          omega
      · rcases hleaf : S2_leafLoop2 x low (primes.getD b 0) (phi b) primes
            (twoPrimeLs primes (max (x / (primes.getD b 0 * high)) (primes.getD b 0))
              (primePi (min (x / (primes.getD b 0 * max low 1)) y))) sv s2 with ⟨svL, s2L⟩
        obtain ⟨f1, f2, f3, f4, f5, f6, f7⟩ :=
          S2_leafLoop2_fixed x low (primes.getD b 0) (phi b) primes
            (twoPrimeLs primes (max (x / (primes.getD b 0 * high)) (primes.getD b 0))
              (primePi (min (x / (primes.getD b 0 * max low 1)) y))) sv s2
        rw [hleaf] at f1 f2 f3 f4 f5 f6 f7
        have hBL : BitsInv svL := BitsInv.of_fields hB f1 f3 f4 f5 f6 f7
        have hbitsL : svL.bits = afterBits primes low size (b - 1) := f1.trans hbits
        have hlowL : svL.low = low := f2.trans hlo
        have hszL : svL.sieve_size = size := f3.trans hsz
        obtain ⟨hBn, _, hbn, hlon, hszn, _, _, _, _⟩ :=
          Sieve.cross_off_count_spec hBL (primes.getD b 0)
        have hbitsn : (svL.cross_off_count (primes.getD b 0)).bits =
            afterBits primes low size b := by
          rw [hbn, hlowL, hszL, hbitsL]
          exact specCross_afterBits primes low size b hb1
        have hlon' : (svL.cross_off_count (primes.getD b 0)).low = low :=
          hlon.trans hlowL
        have hszn' : (svL.cross_off_count (primes.getD b 0)).sieve_size = size :=
          hszn.trans hszL
        obtain ⟨sv1, phi1, s21, b1, g, heq, hble1, hB1, hbits1, hlo1, hsz1,
            hlow', hhigh', hproc, hprocsuf⟩ :=
          ih (b + 1) (svL.cross_off_count (primes.getD b 0))
            (fun b' => if b' = b then phi b + svL.get_total_count else phi b') s2L
            (by omega) (by omega) hBn hbitsn hlon' hszn'
        refine ⟨sv1, phi1, s21, b1, g, ?_, by omega, hB1, hbits1, hlo1, hsz1,
          ?_, ?_, ?_, ?_⟩
        · rw [S2_loop2, if_pos hblt]
          show (if primes.getD b 0 ≥
              primes.getD (primePi (min (x / (primes.getD b 0 * max low 1)) y)) 0
              then (sv, phi, s2, b, true)
              else
                match S2_leafLoop2 x low (primes.getD b 0) (phi b) primes
                    (twoPrimeLs primes
                      (max (x / (primes.getD b 0 * high)) (primes.getD b 0))
                      (primePi (min (x / (primes.getD b 0 * max low 1)) y))) sv s2 with
                | (svv, s2v) =>
                    S2_loop2 x y primes pi_y low high (b + 1)
                      (svv.cross_off_count (primes.getD b 0))
                      (fun b' => if b' = b then phi b + svv.get_total_count else phi b')
                      s2v) = (sv1, phi1, s21, b1, g)
          rw [if_neg hng, hleaf]
          exact heq
        · intro b' hb'
          rw [hlow' b' (by omega)]
          rw [if_neg (by omega : ¬ b' = b)]
        · intro b' hb'
          rw [hhigh' b' hb']
          rw [if_neg (by omega : ¬ b' = b)]
        · intro b' h1 h2
          rcases Nat.eq_or_lt_of_le h1 with rfl | hlt
          · rw [hlow' b (by omega), if_pos rfl]
            have hg4 : svL.get_total_count = sv.total_count := f4
            have htot : sv.total_count =
                popcountBelow (afterBits primes low size (b - 1)) size := by
              rw [hB.total_ok, hbits, hsz]
            rw [hg4, htot]
          · rw [hproc b' (by omega) h2]
            rw [if_neg (by omega : ¬ b' = b)]
        · intro b0 hb0 hb0' hall
          rcases Nat.eq_or_lt_of_le hb0 with rfl | hlt
          · omega
          · exact hprocsuf b0 (by omega) hb0' (fun t ht ht' => hall t (by omega) ht')
    · refine ⟨sv, phi, s2, b, false, ?_, le_refl b, hB, hbits, hlo, hsz,
        fun b' _ => rfl, fun b' _ => rfl,
        fun b' h1 h2 => absurd h2 (Nat.not_lt.mpr h1),
        fun b0 hb0 hb0' _ => absurd hb0' (by omega)⟩
      rw [S2_loop2, if_neg hblt]

/-- Per-segment `phi` characterization shared by the amended claim and the
counterexample computation: each index `b` processed in the segment (its
no-goto conditions hold) carries `phi b + popcount(survivors of
primes[1..b-1])` into the next segment. -/
theorem S2_segment_phi (x y c : Nat) (primes : List Nat)
    (pi_sqrty pi_y k low high : Nat) (phi : Nat → Nat) (s2 : Int) (b : Nat)
    (hlow : low % 2 = 0) (hlh : low < high)
    (hc : c ≤ pi_sqrty) (hb : c + 1 ≤ b)
    (hreg : b ≤ pi_sqrty ∨ b < pi_y)
    (hng1 : ∀ t, c + 1 ≤ t → t ≤ pi_sqrty → t ≤ b → noGoto1 x y low primes t)
    (hng2 : ∀ t, pi_sqrty < t → t ≤ b → noGoto2 x y low primes t) :
    (S2_segment x y c primes pi_sqrty pi_y k low high phi s2).1 b =
      phi b + popcountBelow (afterBits primes low (high - low) (b - 1)) (high - low) := by
  have hsizepos : 0 < high - low := by omega
  obtain ⟨hB0, _⟩ := Sieve.pre_sieve_spec primes c low (high - low) k hlow hsizepos
  have hbits0 : (Sieve.pre_sieve primes c low (high - low) k).bits =
      afterBits primes low (high - low) (c + 1 - 1) := rfl
  obtain ⟨svA, phiA, s2A, bA, gA, heqA, hbleA, hBA, hbitsA, hloA, hszA,
      hlowA, hhighA, hprocA, hsufA, hgmaxA, hgsufA⟩ :=
    S2_loop1_phi x y primes pi_sqrty low high (high - low)
      (pi_sqrty + 1) (c + 1) (Sieve.pre_sieve primes c low (high - low) k) phi s2
      (by omega) (by omega) hB0 hbits0 rfl rfl
  show (match S2_loop1 x y primes pi_sqrty low high (c + 1)
      (Sieve.pre_sieve primes c low (high - low) k) phi s2 with
    | (sv1, phi1, s21, b1, goto1) =>
      if goto1 then (phi1, s21)
      else
        match S2_loop2 x y primes pi_y low high b1 sv1 phi1 s21 with
        | (_, phi2, s22, _, _) => (phi2, s22)).1 b = _
  rw [heqA]
  show (if gA then (phiA, s2A)
    else
      match S2_loop2 x y primes pi_y low high bA svA phiA s2A with
      | (_, phi2, s22, _, _) => (phi2, s22)).1 b = _
  by_cases hble : b ≤ pi_sqrty
  · have hbA : b < bA :=
      hsufA b hb hble (fun t ht htb => hng1 t ht (Nat.le_trans htb hble) htb)
    have hphiA : phiA b =
        phi b + popcountBelow (afterBits primes low (high - low) (b - 1)) (high - low) :=
      hprocA b hb hbA
    cases gA with
    | true => exact hphiA
    | false =>
      obtain ⟨svB, phiB, s2B, bB, gB, heqB, _, _, _, _, _, hlowB, hhighB, hprocB, hsufB⟩ :=
        S2_loop2_phi x y primes pi_y low high (high - low) pi_y bA svA phiA s2A
          (by omega) (by omega) hBA hbitsA hloA hszA
      show (match S2_loop2 x y primes pi_y low high bA svA phiA s2A with
        | (_, phi2, s22, _, _) => (phi2, s22)).1 b = _
      rw [heqB]
      show phiB b = _
      rw [hlowB b hbA, hphiA]
  · have hblt : b < pi_y := hreg.resolve_left hble
    have hgA : gA = false :=
      hgsufA (fun t ht htp => hng1 t ht htp (by omega))
    subst hgA
    have hbA : bA = max (c + 1) (pi_sqrty + 1) := hgmaxA rfl
    have hbA' : bA = pi_sqrty + 1 := by omega
    obtain ⟨svB, phiB, s2B, bB, gB, heqB, _, _, _, _, _, hlowB, hhighB, hprocB, hsufB⟩ :=
      S2_loop2_phi x y primes pi_y low high (high - low) pi_y bA svA phiA s2A
        (by omega) (by omega) hBA hbitsA hloA hszA
    have hbB : b < bB :=
      hsufB b (by omega) hblt (fun t ht htb => hng2 t (by omega) htb)
    show (match S2_loop2 x y primes pi_y low high bA svA phiA s2A with
      | (_, phi2, s22, _, _) => (phi2, s22)).1 b = _
    rw [heqB]
    show phiB b = _
    rw [hprocB b (by omega) hbB, hhighA b (by omega)]

/-- **C5** (amended): at every segment boundary of the hard-special-leaves
computation, for each prime index `b` processed in the segment, the value
`phi[b]` carried into the next segment equals `phi[b]` of the previous
segment plus the sieve's `total_count` taken BEFORE `cross_off_count` of
`p[b]` is applied — the count of integers in the sieved range that are odd
and coprime to `primes[1..b-1]` (least prime factor greater than
`p[b-1]`) — not the `total_count` taken after that cross-off as the spec's
section 3 invariant states. -/
theorem c5_phi_boundary_update (x y c : Nat) (primes : List Nat)
    (pi_sqrty pi_y k low high : Nat) (phi : Nat → Nat) (s2 : Int) (b : Nat)
    (hlow : low % 2 = 0) (hlh : low < high)
    (hc : c ≤ pi_sqrty) (hb : c + 1 ≤ b)
    (hreg : b ≤ pi_sqrty ∨ b < pi_y)
    (hng1 : ∀ t, c + 1 ≤ t → t ≤ pi_sqrty → t ≤ b → noGoto1 x y low primes t)
    (hng2 : ∀ t, pi_sqrty < t → t ≤ b → noGoto2 x y low primes t) :
    (S2_segment x y c primes pi_sqrty pi_y k low high phi s2).1 b =
      phi b + popcountBelow (afterBits primes low (high - low) (b - 1)) (high - low) :=
  S2_segment_phi x y c primes pi_sqrty pi_y k low high phi s2 b
    hlow hlh hc hb hreg hng1 hng2

/-- **C5** counterexample to the spec's stated order of operations: in the
segment `[0, 6)` of `x = 54`, `y = 9`, `c = 1`, the value added to
`phi[2]` is the `total_count` BEFORE the cross-off of `p[2] = 3` (the 3
odd survivors 1, 3, 5), while the `total_count` after that cross-off is 2:
the section-3 boundary invariant
`phi[b]_next = phi[b] + total_count_after_cross_off_of_p[b]` fails at
`b = 2`. -/
theorem c5_counterexample :
    (S2_segment 54 9 1 (primesUpTo 9) 2 4 1 0 6 (fun _ => 0) 0).1 2 = 3 ∧
    ((Sieve.pre_sieve (primesUpTo 9) 1 0 6 1).cross_off_count
        ((primesUpTo 9).getD 2 0)).total_count = 2 ∧
    (3 : Nat) ≠ 0 + 2 := by
  refine ⟨?_, by decide, by decide⟩
  rw [S2_segment_phi 54 9 1 (primesUpTo 9) 2 4 1 0 6 (fun _ => 0) 0 2
    (by decide) (by decide) (by decide) (by decide) (Or.inl (by decide))
    (fun t ht htp htb => by
      have ht2 : t = 2 := by omega
      subst ht2
      unfold noGoto1
      decide)
    (fun t htp htb => absurd (Nat.lt_of_lt_of_le htp htb) (by decide))]
  decide

/-- Witness instantiating the amended C5 on the first segment of
`x = 54`, `y = 9`, `c = 1` at `b = 2`. -/
theorem c5_witness :
    (S2_segment 54 9 1 (primesUpTo 9) 2 4 1 0 6 (fun t => t) 0).1 2 =
      (fun t => t) 2 +
        popcountBelow (afterBits (primesUpTo 9) 0 (6 - 0) (2 - 1)) (6 - 0) :=
  c5_phi_boundary_update 54 9 1 (primesUpTo 9) 2 4 1 0 6 (fun t => t) 0 2
    (by decide) (by decide) (by decide) (by decide) (Or.inl (by decide))
    (fun t ht htp htb => by
      have ht2 : t = 2 := by omega
      subst ht2
      unfold noGoto1
      decide)
    (fun t htp htb => absurd (Nat.lt_of_lt_of_le htp htb) (by decide))

end ClaimC5

section ClaimC4

theorem primePi_mono {a b : Nat} (h : a ≤ b) : primePi a ≤ primePi b := by
  unfold primePi
  exact Finset.card_le_card
    (Finset.filter_subset_filter _ (Finset.range_subset.mpr (by omega)))

theorem mem_primesBetween {a b p : Nat} :
    p ∈ primesBetween a b ↔ a ≤ p ∧ p ≤ b ∧ p.Prime := by
  unfold primesBetween
  simp only [List.mem_filter, List.mem_range'_1, decide_eq_true_eq]
  constructor
  · rintro ⟨⟨h1, h2⟩, h3⟩
    exact ⟨h1, by omega, h3⟩
  · rintro ⟨h1, h2, h3⟩
    exact ⟨⟨h1, by omega⟩, h3⟩

theorem pairwise_primesBetween (a b : Nat) :
    List.Pairwise (· < ·) (primesBetween a b) :=
  List.Pairwise.sublist (List.filter_sublist _) (List.pairwise_lt_range' _ _)

theorem mem_windowPrimes {x y lo hi p : Nat} :
    p ∈ windowPrimes x y lo hi ↔
      p ∈ primesBetween (y + 1) (Nat.sqrt x) ∧ lo ≤ x / p ∧ x / p < hi := by
  unfold windowPrimes
  simp [List.mem_filter]

theorem pairwise_windowPrimes (x y lo hi : Nat) :
    List.Pairwise (· < ·) (windowPrimes x y lo hi) :=
  List.Pairwise.sublist (List.filter_sublist _) (pairwise_primesBetween _ _)

/-- Two strictly sorted lists of naturals with the same members are
equal. -/
theorem sorted_lt_ext (l1 l2 : List Nat) (h1 : List.Pairwise (· < ·) l1)
    (h2 : List.Pairwise (· < ·) l2) (hmem : ∀ p, p ∈ l1 ↔ p ∈ l2) : l1 = l2 := by
  have hn1 : l1.Nodup := h1.imp (fun h => by omega)
  have hn2 : l2.Nodup := h2.imp (fun h => by omega)
  refine List.eq_of_perm_of_sorted
    (List.perm_of_nodup_nodup_toFinset_eq hn1 hn2 ?_) h1 h2
  ext q
  simp only [List.mem_toFinset]
  exact hmem q

theorem windowPrimes_empty {x y lo hi : Nat} (h : hi ≤ lo) :
    windowPrimes x y lo hi = [] := by
  unfold windowPrimes
  rw [List.filter_eq_nil_iff]
  intro p _
  simp only [decide_eq_true_eq]
  omega

/-- Adjacent thread windows merge: the window sums over `[lo, mid)` and
`[mid, hi)` add up to the window sum over `[lo, hi)`. -/
theorem windowPrimes_split (x y : Nat) (g : Nat → Nat) {lo mid hi : Nat}
    (h1 : lo ≤ mid) (h2 : mid ≤ hi) :
    ((windowPrimes x y lo mid).map g).sum + ((windowPrimes x y mid hi).map g).sum =
      ((windowPrimes x y lo hi).map g).sum := by
  unfold windowPrimes
  induction primesBetween (y + 1) (Nat.sqrt x) with
  | nil => simp
  | cons a L ih =>
    rw [List.filter_cons, List.filter_cons, List.filter_cons]
    by_cases c1 : lo ≤ x / a
    · by_cases c2 : x / a < mid
      · have d1 : decide (lo ≤ x / a ∧ x / a < mid) = true := by simp [c1, c2]
        have d2 : decide (mid ≤ x / a ∧ x / a < hi) = true → False := by
          simp only [decide_eq_true_eq]
          omega
        have d2' : decide (mid ≤ x / a ∧ x / a < hi) = false := by
          cases hd : decide (mid ≤ x / a ∧ x / a < hi)
          · rfl
          · exact absurd hd d2
        have d3 : decide (lo ≤ x / a ∧ x / a < hi) = true := by
          simp only [decide_eq_true_eq]
          omega
        rw [if_pos d1, if_pos d3, if_neg (by rw [d2']; exact Bool.false_ne_true)]
        simp only [List.map_cons, List.sum_cons]
        omega
      · by_cases c3 : x / a < hi
        · have d1 : decide (lo ≤ x / a ∧ x / a < mid) = false := by
            simp only [decide_eq_false_iff_not]
            omega
          have d2 : decide (mid ≤ x / a ∧ x / a < hi) = true := by
            simp only [decide_eq_true_eq]
            omega
          have d3 : decide (lo ≤ x / a ∧ x / a < hi) = true := by
            simp only [decide_eq_true_eq]
            omega
          rw [if_neg (by rw [d1]; exact Bool.false_ne_true), if_pos d2, if_pos d3]
          simp only [List.map_cons, List.sum_cons]
          omega
        · have d1 : decide (lo ≤ x / a ∧ x / a < mid) = false := by
            simp only [decide_eq_false_iff_not]
            omega
          have d2 : decide (mid ≤ x / a ∧ x / a < hi) = false := by
            simp only [decide_eq_false_iff_not]
            omega
          have d3 : decide (lo ≤ x / a ∧ x / a < hi) = false := by
            simp only [decide_eq_false_iff_not]
            omega
          rw [if_neg (by rw [d1]; exact Bool.false_ne_true),
            if_neg (by rw [d2]; exact Bool.false_ne_true),
            if_neg (by rw [d3]; exact Bool.false_ne_true)]
          exact ih
    · have d1 : decide (lo ≤ x / a ∧ x / a < mid) = false := by
        simp only [decide_eq_false_iff_not]
        omega
      have d2 : decide (mid ≤ x / a ∧ x / a < hi) = false := by
        simp only [decide_eq_false_iff_not]
        omega
      have d3 : decide (lo ≤ x / a ∧ x / a < hi) = false := by
        simp only [decide_eq_false_iff_not]
        omega
      rw [if_neg (by rw [d1]; exact Bool.false_ne_true),
        if_neg (by rw [d2]; exact Bool.false_ne_true),
        if_neg (by rw [d3]; exact Bool.false_ne_true)]
      exact ih

/-- The descending-prime fold of `P2_thread`/`B_thread`: starting from an
iterator bound `L` with `pix = π(L) - π(L0)` and querying the
non-decreasing stops `x / p`, each step turns `pix` into `π(x/p) - π(L0)`,
adds it to the local sum and counts the iteration. -/
theorem threadStep_fold (x L0 : Nat) :
    ∀ (ps : List Nat) (sum pix iters L : Nat),
      pix = primePi L - primePi L0 →
      primePi L0 ≤ primePi L →
      List.Pairwise (· ≥ ·) ps →
      (∀ p, p ∈ ps → 0 < p ∧ L ≤ x / p) →
      ∃ L', ps.foldl (threadStep x) (sum, pix, iters, L) =
          (sum + ((ps.map (fun p => primePi (x / p) - primePi L0)).sum),
           primePi L' - primePi L0, iters + ps.length, L') ∧
        primePi L0 ≤ primePi L' ∧
        (L' = L ∨ ∃ p, p ∈ ps ∧ L' = x / p) := by
  intro ps
  induction ps with
  | nil =>
    intro sum pix iters L hpix hmono _ _
    exact ⟨L, by simp [hpix], hmono, Or.inl rfl⟩
  | cons p ps ih =>
    intro sum pix iters L hpix hmono hpair hmem
    obtain ⟨hp0, hLp⟩ := hmem p (List.mem_cons_self p ps)
    have hm : primePi L ≤ primePi (x / p) := primePi_mono hLp
    have hstep : threadStep x (sum, pix, iters, L) p =
        (sum + (primePi (x / p) - primePi L0), primePi (x / p) - primePi L0,
         iters + 1, x / p) := by
      show (sum + (pix + (primePi (x / p) - primePi L)),
        pix + (primePi (x / p) - primePi L), iters + 1, max L (x / p)) = _
      have hmax : max L (x / p) = x / p := Nat.max_eq_right hLp
      have hpc : pix + (primePi (x / p) - primePi L) =
          primePi (x / p) - primePi L0 := by omega
      rw [hmax, hpc]
    rw [List.foldl_cons, hstep]
    have hhead := (List.pairwise_cons.mp hpair).1
    obtain ⟨L', heq, hm', hor⟩ :=
      ih (sum + (primePi (x / p) - primePi L0)) (primePi (x / p) - primePi L0)
        (iters + 1) (x / p) rfl (Nat.le_trans hmono hm)
        (List.pairwise_cons.mp hpair).2
        (fun q hq => ⟨(hmem q (List.mem_cons_of_mem p hq)).1,
          Nat.div_le_div_left (hhead q hq) (hmem q (List.mem_cons_of_mem p hq)).1⟩)
    refine ⟨L', ?_, hm', ?_⟩
    · have h1 : sum + ((primePi (x / p) - primePi L0) +
          ((ps.map (fun q => primePi (x / q) - primePi L0)).sum)) =
          sum + (primePi (x / p) - primePi L0) +
            ((ps.map (fun q => primePi (x / q) - primePi L0)).sum) := by omega
      have h2 : iters + (ps.length + 1) = iters + 1 + ps.length := by omega
      rw [List.map_cons, List.sum_cons, List.length_cons, h1, h2]
      exact heq
    · rcases hor with h | ⟨q, hq, h⟩
      · exact Or.inr ⟨p, List.mem_cons_self p ps, h⟩
      · exact Or.inr ⟨q, List.mem_cons_of_mem p hq, h⟩

/-- Strict upper bound on the stops: for a window prime `y < p ≤ isqrt(x)`
the quotient `x / p` stays below the sieving limit `x / y`. -/
theorem div_lt_limit_of_window {x y p : Nat} (hy : 0 < y) (hyp : y < p)
    (hps : p ≤ Nat.sqrt x) : x / p < x / y := by
  have hp0 : 0 < p := by omega
  have hpp : p * p ≤ x := Nat.le_sqrt.mp hps
  have hq : p ≤ x / p := (Nat.le_div_iff_mul_le hp0).mpr hpp
  by_contra hc
  push_neg at hc
  have hle : x / p ≤ x / y := Nat.div_le_div_left (by omega) hy
  have heq : x / p = x / y := Nat.le_antisymm hle hc
  have hq1 : (x / p) * p ≤ x := (Nat.le_div_iff_mul_le hp0).mp (le_refl _)
  have hx2 : x < (x / p + 1) * y := (Nat.div_lt_iff_lt_mul hy).mp (by omega)
  have hy1 : (x / p) * (y + 1) ≤ (x / p) * p := Nat.mul_le_mul_left _ (by omega)
  have he1 : (x / p) * (y + 1) = (x / p) * y + x / p := by ring
  have he2 : (x / p + 1) * y = (x / p) * y + y := by ring
  omega

/-- The prime window computed by `B_thread` from `start`/`stop` with the
`isqrt(x)` caps is exactly `windowPrimes` of its sieving interval. -/
theorem windowPrimes_eq_B (x y low1 z1 : Nat) (hlow1 : 0 < low1) (hz1 : low1 < z1) :
    primesBetween (max (min (x / z1) (Nat.sqrt x)) y + 1) (min (x / low1) (Nat.sqrt x)) =
      windowPrimes x y low1 z1 := by
  have hz0 : 0 < z1 := by omega
  apply sorted_lt_ext _ _ (pairwise_primesBetween _ _) (pairwise_windowPrimes _ _ _ _)
  intro p
  rw [mem_primesBetween, mem_windowPrimes, mem_primesBetween]
  constructor
  · rintro ⟨h1, h2, hp⟩
    have hp0 : 0 < p := hp.pos
    have hple : p ≤ Nat.sqrt x := Nat.le_trans h2 (Nat.min_le_right _ _)
    have hplow : p ≤ x / low1 := Nat.le_trans h2 (Nat.min_le_left _ _)
    have hxp1 : low1 ≤ x / p := by
      rw [Nat.le_div_iff_mul_le hp0, Nat.mul_comm low1 p]
      exact (Nat.le_div_iff_mul_le hlow1).mp hplow
    have hminlt : min (x / z1) (Nat.sqrt x) < p := by
      have := Nat.le_max_left (min (x / z1) (Nat.sqrt x)) y
      omega
    have hylt : y < p := by
      have := Nat.le_max_right (min (x / z1) (Nat.sqrt x)) y
      omega
    have hzp : x / z1 < p := by
      rcases le_or_lt (x / z1) (Nat.sqrt x) with hcase | hcase
      · rwa [Nat.min_eq_left hcase] at hminlt
      · rw [Nat.min_eq_right (Nat.le_of_lt hcase)] at hminlt
        omega
    have hxp2 : x / p < z1 := by
      rw [Nat.div_lt_iff_lt_mul hp0, Nat.mul_comm z1 p]
      have hnp : ¬ p ≤ x / z1 := by omega
      rw [Nat.le_div_iff_mul_le hz0] at hnp
      omega
    exact ⟨⟨by omega, hple, hp⟩, hxp1, hxp2⟩
  · rintro ⟨⟨hy1, hsx, hp⟩, hlo, hhi⟩
    have hp0 : 0 < p := hp.pos
    have hup : p ≤ x / low1 := by
      rw [Nat.le_div_iff_mul_le hlow1, Nat.mul_comm p low1]
      exact (Nat.le_div_iff_mul_le hp0).mp hlo
    have hzlt : x / z1 < p := by
      by_contra hcz
      push_neg at hcz
      rw [Nat.le_div_iff_mul_le hz0] at hcz
      rw [Nat.div_lt_iff_lt_mul hp0, Nat.mul_comm z1 p] at hhi
      omega
    have hstart : max (min (x / z1) (Nat.sqrt x)) y < p :=
      Nat.max_lt.mpr ⟨by have := Nat.min_le_left (x / z1) (Nat.sqrt x); omega, by omega⟩
    have hstop : p ≤ min (x / low1) (Nat.sqrt x) := Nat.le_min.mpr ⟨hup, hsx⟩
    exact ⟨by omega, hstop, hp⟩

/-- The prime window computed by `P2_thread` (no `isqrt(x)` cap on the
start) is also exactly `windowPrimes` of its sieving interval. -/
theorem windowPrimes_eq_P2 (x y low1 z1 : Nat) (hlow1 : 0 < low1) (hz1 : low1 < z1) :
    primesBetween (max (x / z1) y + 1) (min (x / low1) (Nat.sqrt x)) =
      windowPrimes x y low1 z1 := by
  have hz0 : 0 < z1 := by omega
  apply sorted_lt_ext _ _ (pairwise_primesBetween _ _) (pairwise_windowPrimes _ _ _ _)
  intro p
  rw [mem_primesBetween, mem_windowPrimes, mem_primesBetween]
  constructor
  · rintro ⟨h1, h2, hp⟩
    have hp0 : 0 < p := hp.pos
    have hple : p ≤ Nat.sqrt x := Nat.le_trans h2 (Nat.min_le_right _ _)
    have hplow : p ≤ x / low1 := Nat.le_trans h2 (Nat.min_le_left _ _)
    have hxp1 : low1 ≤ x / p := by
      rw [Nat.le_div_iff_mul_le hp0, Nat.mul_comm low1 p]
      exact (Nat.le_div_iff_mul_le hlow1).mp hplow
    have hzp : x / z1 < p := by
      have := Nat.le_max_left (x / z1) y
      omega
    have hxp2 : x / p < z1 := by
      rw [Nat.div_lt_iff_lt_mul hp0, Nat.mul_comm z1 p]
      have hnp : ¬ p ≤ x / z1 := by omega
      rw [Nat.le_div_iff_mul_le hz0] at hnp
      omega
    have hylt : y < p := by
      have := Nat.le_max_right (x / z1) y
      omega
    exact ⟨⟨by omega, hple, hp⟩, hxp1, hxp2⟩
  · rintro ⟨⟨hy1, hsx, hp⟩, hlo, hhi⟩
    have hp0 : 0 < p := hp.pos
    have hup : p ≤ x / low1 := by
      rw [Nat.le_div_iff_mul_le hlow1, Nat.mul_comm p low1]
      exact (Nat.le_div_iff_mul_le hp0).mp hlo
    have hzlt : x / z1 < p := by
      by_contra hcz
      push_neg at hcz
      rw [Nat.le_div_iff_mul_le hz0] at hcz
      rw [Nat.div_lt_iff_lt_mul hp0, Nat.mul_comm z1 p] at hhi
      omega
    have hstart : max (x / z1) y < p := Nat.max_lt.mpr ⟨hzlt, by omega⟩
    have hstop : p ≤ min (x / low1) (Nat.sqrt x) := Nat.le_min.mpr ⟨hup, hsx⟩
    exact ⟨by omega, hstop, hp⟩

/-- `B_thread` returns the local sum of `π(x/p) - π(thread_low - 1)` terms
over its window primes, the window prime count
`π(z' - 1) - π(thread_low - 1)` and the iteration count, and `(0, 0, 0)`
when its interval lies past `z`. -/
theorem B_thread_spec (x y z low i dist : Nat) (hlow : 0 < low + dist * i)
    (hdist : 0 < dist) :
    (low + dist * i < z →
      B_thread x y z low i dist =
        (((windowPrimes x y (low + dist * i) (min (low + dist * i + dist) z)).map
            (fun p => primePi (x / p) - primePi (low + dist * i - 1))).sum,
         primePi (min (low + dist * i + dist) z - 1) - primePi (low + dist * i - 1),
         (windowPrimes x y (low + dist * i) (min (low + dist * i + dist) z)).length)) ∧
    (z ≤ low + dist * i → B_thread x y z low i dist = (0, 0, 0)) := by
  constructor
  · intro hlz
    have hz' : low + dist * i < min (low + dist * i + dist) z := by omega
    have hwin := windowPrimes_eq_B x y (low + dist * i) (min (low + dist * i + dist) z)
      hlow hz'
    have hBT : B_thread x y z low i dist =
        (match ((windowPrimes x y (low + dist * i)
            (min (low + dist * i + dist) z)).reverse).foldl (threadStep x)
            (0, 0, 0, low + dist * i - 1) with
         | (sum, pix, iters, L) =>
           match count_primes L (min (low + dist * i + dist) z - 1) with
           | (cnt, _) => (sum, pix + cnt, iters)) := by
      show (if low + dist * i < z then
          match ((primesBetween
              (max (min (x / min (low + dist * i + dist) z) (Nat.sqrt x)) y + 1)
              (min (x / (low + dist * i)) (Nat.sqrt x))).reverse).foldl (threadStep x)
            (0, 0, 0, low + dist * i - 1) with
          | (sum, pix, iters, L) =>
            match count_primes L (min (low + dist * i + dist) z - 1) with
            | (cnt, _) => (sum, pix + cnt, iters)
        else (0, 0, 0)) = _
      rw [if_pos hlz, hwin]
    obtain ⟨L', heq, hm', hor⟩ := threadStep_fold x (low + dist * i - 1)
      ((windowPrimes x y (low + dist * i) (min (low + dist * i + dist) z)).reverse)
      0 0 0 (low + dist * i - 1)
      (Nat.sub_self _).symm (le_refl _)
      (List.pairwise_reverse.mpr
        ((pairwise_windowPrimes _ _ _ _).imp (fun h => Nat.le_of_lt h)))
      (by
        intro p hp
        rw [List.mem_reverse] at hp
        obtain ⟨hpb, hlo, hhi⟩ := mem_windowPrimes.mp hp
        obtain ⟨_, _, hpr⟩ := mem_primesBetween.mp hpb
        exact ⟨hpr.pos, by omega⟩)
    rw [hBT, heq]
    have hL'le : primePi L' ≤ primePi (min (low + dist * i + dist) z - 1) := by
      rcases hor with h | ⟨p, hp, h⟩
      · exact primePi_mono (by omega)
      · rw [List.mem_reverse] at hp
        obtain ⟨_, _, hhi⟩ := mem_windowPrimes.mp hp
        exact primePi_mono (by omega)
    have hpix : (primePi L' - primePi (low + dist * i - 1)) +
        (primePi (min (low + dist * i + dist) z - 1) - primePi L') =
        primePi (min (low + dist * i + dist) z - 1) -
          primePi (low + dist * i - 1) := by omega
    show (0 + (((windowPrimes x y (low + dist * i)
        (min (low + dist * i + dist) z)).reverse).map
          (fun p => primePi (x / p) - primePi (low + dist * i - 1))).sum,
      (primePi L' - primePi (low + dist * i - 1)) +
        (primePi (min (low + dist * i + dist) z - 1) - primePi L'),
      0 + ((windowPrimes x y (low + dist * i)
        (min (low + dist * i + dist) z)).reverse).length) = _
    rw [hpix, List.map_reverse, List.sum_reverse, List.length_reverse]
    simp only [Nat.zero_add]
  · intro hgz
    show (if low + dist * i < z then _ else ((0 : Nat), (0 : Nat), (0 : Nat))) = _
    rw [if_neg (by omega)]

/-- `P2_thread` satisfies the same window characterization as
`B_thread`. -/
theorem P2_thread_spec (x y z low i dist : Nat) (hlow : 0 < low + dist * i)
    (hdist : 0 < dist) :
    (low + dist * i < z →
      P2_thread x y z low i dist =
        (((windowPrimes x y (low + dist * i) (min (low + dist * i + dist) z)).map
            (fun p => primePi (x / p) - primePi (low + dist * i - 1))).sum,
         primePi (min (low + dist * i + dist) z - 1) - primePi (low + dist * i - 1),
         (windowPrimes x y (low + dist * i) (min (low + dist * i + dist) z)).length)) ∧
    (z ≤ low + dist * i → P2_thread x y z low i dist = (0, 0, 0)) := by
  constructor
  · intro hlz
    have hz' : low + dist * i < min (low + dist * i + dist) z := by omega
    have hwin := windowPrimes_eq_P2 x y (low + dist * i) (min (low + dist * i + dist) z)
      hlow hz'
    have hBT : P2_thread x y z low i dist =
        (match ((windowPrimes x y (low + dist * i)
            (min (low + dist * i + dist) z)).reverse).foldl (threadStep x)
            (0, 0, 0, low + dist * i - 1) with
         | (sum, pix, iters, L) =>
           match count_primes L (min (low + dist * i + dist) z - 1) with
           | (cnt, _) => (sum, pix + cnt, iters)) := by
      show (if low + dist * i < z then
          match ((primesBetween
              (max (x / min (low + dist * i + dist) z) y + 1)
              (min (x / (low + dist * i)) (Nat.sqrt x))).reverse).foldl (threadStep x)
            (0, 0, 0, low + dist * i - 1) with
          | (sum, pix, iters, L) =>
            match count_primes L (min (low + dist * i + dist) z - 1) with
            | (cnt, _) => (sum, pix + cnt, iters)
        else (0, 0, 0)) = _
      rw [if_pos hlz, hwin]
    obtain ⟨L', heq, hm', hor⟩ := threadStep_fold x (low + dist * i - 1)
      ((windowPrimes x y (low + dist * i) (min (low + dist * i + dist) z)).reverse)
      0 0 0 (low + dist * i - 1)
      (Nat.sub_self _).symm (le_refl _)
      (List.pairwise_reverse.mpr
        ((pairwise_windowPrimes _ _ _ _).imp (fun h => Nat.le_of_lt h)))
      (by
        intro p hp
        rw [List.mem_reverse] at hp
        obtain ⟨hpb, hlo, hhi⟩ := mem_windowPrimes.mp hp
        obtain ⟨_, _, hpr⟩ := mem_primesBetween.mp hpb
        exact ⟨hpr.pos, by omega⟩)
    rw [hBT, heq]
    have hL'le : primePi L' ≤ primePi (min (low + dist * i + dist) z - 1) := by
      rcases hor with h | ⟨p, hp, h⟩
      · exact primePi_mono (by omega)
      · rw [List.mem_reverse] at hp
        obtain ⟨_, _, hhi⟩ := mem_windowPrimes.mp hp
        exact primePi_mono (by omega)
    have hpix : (primePi L' - primePi (low + dist * i - 1)) +
        (primePi (min (low + dist * i + dist) z - 1) - primePi L') =
        primePi (min (low + dist * i + dist) z - 1) -
          primePi (low + dist * i - 1) := by omega
    show (0 + (((windowPrimes x y (low + dist * i)
        (min (low + dist * i + dist) z)).reverse).map
          (fun p => primePi (x / p) - primePi (low + dist * i - 1))).sum,
      (primePi L' - primePi (low + dist * i - 1)) +
        (primePi (min (low + dist * i + dist) z - 1) - primePi L'),
      0 + ((windowPrimes x y (low + dist * i)
        (min (low + dist * i + dist) z)).reverse).length) = _
    rw [hpix, List.map_reverse, List.sum_reverse, List.length_reverse]
    simp only [Nat.zero_add]
  · intro hgz
    show (if low + dist * i < z then _ else ((0 : Nat), (0 : Nat), (0 : Nat))) = _
    rw [if_neg (by omega)]

theorem batchFold_append_one (res : List (Nat × Nat × Nat)) (r : Nat × Nat × Nat)
    (sum pi1 s2 p2 : Nat) (h : batchFold res sum pi1 = (s2, p2)) :
    batchFold (res ++ [r]) sum pi1 = (s2 + (r.1 + p2 * r.2.2), p2 + r.2.1) := by
  unfold batchFold
  unfold batchFold at h
  rw [List.foldl_append, h]
  rfl

/-- Per-window correction: adding back `π(thread_low - 1)` once per
iteration turns the local sum into the absolute window sum. -/
theorem window_term_sum (x : Nat) (W : List Nat) (pi0 : Nat)
    (h : ∀ p, p ∈ W → pi0 ≤ primePi (x / p)) :
    ((W.map (fun p => primePi (x / p) - pi0)).sum) + pi0 * W.length =
      ((W.map (fun p => primePi (x / p))).sum) := by
  induction W with
  | nil => simp
  | cons a W ih =>
    simp only [List.map_cons, List.sum_cons, List.length_cons]
    have ha := h a (List.mem_cons_self a W)
    have ih' := ih (fun p hp => h p (List.mem_cons_of_mem a hp))
    have hmul : pi0 * (W.length + 1) = pi0 * W.length + pi0 := by ring
    omega

/-- One batch of `T` threads at distance `dist` starting from `low < z`:
the sequential fold stitches the thread results into the absolute window
sum over `[low, min(low + dist*T, z))` and advances `pi_low_minus_1` to
`π(min(low + dist*T, z) - 1)`. -/
theorem batchFold_spec (x y z : Nat) (thread : Nat → Nat → Nat → Nat × Nat × Nat)
    (dist : Nat) (hdist : 0 < dist)
    (hth : ∀ lo i, 0 < lo + dist * i →
      (lo + dist * i < z → thread lo i dist =
        (((windowPrimes x y (lo + dist * i) (min (lo + dist * i + dist) z)).map
            (fun p => primePi (x / p) - primePi (lo + dist * i - 1))).sum,
         primePi (min (lo + dist * i + dist) z - 1) - primePi (lo + dist * i - 1),
         (windowPrimes x y (lo + dist * i) (min (lo + dist * i + dist) z)).length)) ∧
      (z ≤ lo + dist * i → thread lo i dist = (0, 0, 0)))
    (low : Nat) (hlow : 0 < low) (hlz : low < z) :
    ∀ T sum,
      batchFold ((List.range T).map (fun i => thread low i dist)) sum
          (primePi (low - 1)) =
        (sum + ((windowPrimes x y low (min (low + dist * T) z)).map
            (fun p => primePi (x / p))).sum,
         primePi (min (low + dist * T) z - 1)) := by
  intro T
  induction T with
  | zero =>
    intro sum
    have hm : min (low + dist * 0) z = low := by omega
    rw [hm, windowPrimes_empty (le_refl low)]
    show (sum, primePi (low - 1)) = _
    simp
  | succ T ih =>
    intro sum
    rw [List.range_succ, List.map_append, List.map_cons, List.map_nil,
      batchFold_append_one _ _ _ _ _ _ (ih sum)]
    have hz'eq : min (low + dist * T + dist) z = min (low + dist * (T + 1)) z := by
      rw [Nat.mul_succ]
      omega
    rw [← hz'eq]
    by_cases hcase : low + dist * T < z
    · have hpos : 0 < low + dist * T := by omega
      rw [(hth low T hpos).1 hcase]
      have hmT : min (low + dist * T) z = low + dist * T := by omega
      rw [hmT]
      dsimp only
      have hWterm := window_term_sum x
        (windowPrimes x y (low + dist * T) (min (low + dist * T + dist) z))
        (primePi (low + dist * T - 1))
        (by
          intro p hp
          obtain ⟨_, hlo, _⟩ := mem_windowPrimes.mp hp
          exact primePi_mono (by omega))
      have hsplit := windowPrimes_split x y (fun p => primePi (x / p))
        (by omega : low ≤ low + dist * T)
        (by omega : low + dist * T ≤ min (low + dist * T + dist) z)
      have hmono := primePi_mono
        (by omega : low + dist * T - 1 ≤ min (low + dist * T + dist) z - 1)
      congr 1
      · omega
      · omega
    · have hpos : 0 < low + dist * T := by omega
      rw [(hth low T hpos).2 (by omega)]
      have hmz : min (low + dist * T) z = z := by omega
      have hmz2 : min (low + dist * T + dist) z = z := by omega
      rw [hmz, hmz2]
      rfl

/-- The batch loop: for any schedule, starting from `pi_low_minus_1 =
π(low - 1)`, the accumulated sum grows by exactly the absolute window sum
over the covered range `[low, min(final_low, z))`, independently of the
partition into batches and threads. -/
theorem kernelRun_spec (x y z : Nat) (thread : Nat → Nat → Nat → Nat × Nat × Nat)
    (hth : ∀ d, 0 < d → ∀ lo i, 0 < lo + d * i →
      (lo + d * i < z → thread lo i d =
        (((windowPrimes x y (lo + d * i) (min (lo + d * i + d) z)).map
            (fun p => primePi (x / p) - primePi (lo + d * i - 1))).sum,
         primePi (min (lo + d * i + d) z - 1) - primePi (lo + d * i - 1),
         (windowPrimes x y (lo + d * i) (min (lo + d * i + d) z)).length)) ∧
      (z ≤ lo + d * i → thread lo i d = (0, 0, 0))) :
    ∀ (sched : List (Nat × Nat)) (low sum pi_lm1 : Nat),
      0 < low →
      (∀ dT, dT ∈ sched → 0 < dT.1) →
      (low < z → pi_lm1 = primePi (low - 1)) →
      ∃ low_f pi_f,
        kernelRun z thread sched low sum pi_lm1 =
          (low_f, sum + ((windowPrimes x y low (min low_f z)).map
              (fun p => primePi (x / p))).sum, pi_f) ∧
        low ≤ low_f := by
  intro sched
  induction sched with
  | nil =>
    intro low sum pi_lm1 hlow _ _
    refine ⟨low, pi_lm1, ?_, le_refl low⟩
    show (low, sum, pi_lm1) = _
    rw [windowPrimes_empty (Nat.min_le_left low z)]
    simp
  | cons dT sched ih =>
    intro low sum pi_lm1 hlow hsched hpi
    rcases dT with ⟨dist, T⟩
    by_cases hlz : low < z
    · have hdist : 0 < dist := hsched (dist, T) (List.mem_cons_self _ _)
      have hbatch := batchFold_spec x y z thread dist hdist
        (hth dist hdist) low hlow hlz T sum
      rw [hpi hlz] at *
      obtain ⟨low_f, pi_f, heq, hle⟩ :=
        ih (low + dist * T) (sum + ((windowPrimes x y low
            (min (low + dist * T) z)).map (fun p => primePi (x / p))).sum)
          (primePi (min (low + dist * T) z - 1)) (by omega)
          (fun dT' h => hsched dT' (List.mem_cons_of_mem _ h))
          (by
            intro h
            congr 1
            omega)
      refine ⟨low_f, pi_f, ?_, by omega⟩
      show (if low < z then
          match batchFold ((List.range T).map (fun i => thread low i dist)) sum
              (primePi (low - 1)) with
          | (sum1, pi1) => kernelRun z thread sched (low + dist * T) sum1 pi1
        else (low, sum, primePi (low - 1))) = _
      rw [if_pos hlz, hbatch]
      show kernelRun z thread sched (low + dist * T)
          (sum + ((windowPrimes x y low (min (low + dist * T) z)).map
            (fun p => primePi (x / p))).sum)
          (primePi (min (low + dist * T) z - 1)) = _
      rw [heq]
      rcases le_or_lt (low + dist * T) z with hcase | hcase
      · have hm1 : min (low + dist * T) z = low + dist * T := by omega
        have hsplit := windowPrimes_split x y (fun p => primePi (x / p))
          (by omega : low ≤ low + dist * T)
          (by omega : low + dist * T ≤ min low_f z)
        rw [hm1] at *
        have h3 : sum + ((windowPrimes x y low (low + dist * T)).map
              (fun p => primePi (x / p))).sum +
            ((windowPrimes x y (low + dist * T) (min low_f z)).map
              (fun p => primePi (x / p))).sum =
            sum + ((windowPrimes x y low (min low_f z)).map
              (fun p => primePi (x / p))).sum := by omega
        rw [h3]
      · have hm1 : min (low + dist * T) z = z := by omega
        have hm2 : min low_f z = z := by omega
        rw [hm1, hm2] at *
        rw [windowPrimes_empty (by omega : z ≤ low + dist * T)]
        simp
    · refine ⟨low, pi_lm1, ?_, le_refl low⟩
      show (if low < z then _ else (low, sum, pi_lm1)) = _
      rw [if_neg hlz, windowPrimes_empty (Nat.min_le_left low z)]
      simp

/-- When the covered range reaches the sieving limit `z = x / y`, the
window holds every sieving prime of `(y, isqrt x]`. -/
theorem windowPrimes_all (x y lo : Nat) (hy : 0 < y)
    (hlo : ∀ p, p ∈ primesBetween (y + 1) (Nat.sqrt x) → lo ≤ x / p) :
    windowPrimes x y lo (x / y) = primesBetween (y + 1) (Nat.sqrt x) := by
  unfold windowPrimes
  apply List.filter_eq_self.mpr
  intro p hp
  simp only [decide_eq_true_eq]
  obtain ⟨h1, h2, hp'⟩ := mem_primesBetween.mp hp
  exact ⟨hlo p hp, div_lt_limit_of_window hy (by omega) h2⟩

theorem sqrt_le_div_of_window {x p : Nat} (hp0 : 0 < p) (hps : p ≤ Nat.sqrt x) :
    Nat.sqrt x ≤ x / p := by
  rw [Nat.le_div_iff_mul_le hp0]
  calc Nat.sqrt x * p ≤ Nat.sqrt x * Nat.sqrt x := Nat.mul_le_mul_left _ hps
  _ ≤ x := Nat.sqrt_le x

theorem two_le_div_of_window {x p : Nat} (hp2 : 2 ≤ p) (hps : p ≤ Nat.sqrt x) :
    2 ≤ x / p := by
  rw [Nat.le_div_iff_mul_le (by omega)]
  have h1 : 2 * p ≤ p * p := Nat.mul_le_mul_right p hp2
  have h2 : p * p ≤ x := Nat.le_sqrt.mp hps
  omega

/-- **C4**: in the `P2` and `B` kernels, each thread over its interval
`[thread_low, thread_low + thread_dist) ∩ [_, z)` returns the local sum of
`PrimePi(x/prime) - PrimePi(thread_low - 1)` terms over its window primes
together with its window prime count `pix = π(z'-1) - π(thread_low-1)` and
its iteration count `iters`; after the sequential fold in thread order —
which adds `pi_low_minus_1 * iters` to each thread's sum and then
accumulates `pix` into `pi_low_minus_1` — once the batch loop has covered
the whole range (final `low ≥ z = x / y`), the accumulated total equals
the true sum of `PrimePi(x / p)` over the primes `y < p ≤ isqrt(x)`,
independently of how the interval is partitioned into threads and
batches by the schedule. -/
theorem c4_thread_sums_and_sequential_fold (x y : Nat) (sched : List (Nat × Nat))
    (hx : 0 < x) (hy : 0 < y) (hsched : ∀ dT, dT ∈ sched → 0 < dT.1) :
    (∀ low i dist, 0 < dist → 0 < low + dist * i → low + dist * i < x / y →
      B_thread x y (x / y) low i dist =
        (((windowPrimes x y (low + dist * i)
              (min (low + dist * i + dist) (x / y))).map
            (fun p => primePi (x / p) - primePi (low + dist * i - 1))).sum,
         primePi (min (low + dist * i + dist) (x / y) - 1) -
           primePi (low + dist * i - 1),
         (windowPrimes x y (low + dist * i)
           (min (low + dist * i + dist) (x / y))).length)) ∧
    (∀ low i dist, 0 < dist → 0 < low + dist * i → low + dist * i < x / y →
      P2_thread x y (x / y) low i dist =
        (((windowPrimes x y (low + dist * i)
              (min (low + dist * i + dist) (x / y))).map
            (fun p => primePi (x / p) - primePi (low + dist * i - 1))).sum,
         primePi (min (low + dist * i + dist) (x / y) - 1) -
           primePi (low + dist * i - 1),
         (windowPrimes x y (low + dist * i)
           (min (low + dist * i + dist) (x / y))).length)) ∧
    (x / y ≤ (kernelRun (x / y) (B_thread x y (x / y)) sched (Nat.sqrt x) 0
        (primePi (Nat.sqrt x - 1))).1 →
      (kernelRun (x / y) (B_thread x y (x / y)) sched (Nat.sqrt x) 0
        (primePi (Nat.sqrt x - 1))).2.1 =
        ((primesBetween (y + 1) (Nat.sqrt x)).map (fun p => primePi (x / p))).sum) ∧
    (x / y ≤ (kernelRun (x / y) (P2_thread x y (x / y)) sched 2 0 0).1 →
      (kernelRun (x / y) (P2_thread x y (x / y)) sched 2 0 0).2.1 =
        ((primesBetween (y + 1) (Nat.sqrt x)).map (fun p => primePi (x / p))).sum) := by
  refine ⟨?_, ?_, ?_, ?_⟩
  · intro low i dist h1 h2 h3
    exact (B_thread_spec x y (x / y) low i dist h2 h1).1 h3
  · intro low i dist h1 h2 h3
    exact (P2_thread_spec x y (x / y) low i dist h2 h1).1 h3
  · intro hcov
    have hsx : 0 < Nat.sqrt x := Nat.le_sqrt.mpr (by omega : 1 * 1 ≤ x)
    obtain ⟨low_f, pi_f, heq, hle⟩ := kernelRun_spec x y (x / y) (B_thread x y (x / y))
      (fun d hd lo i hpos => B_thread_spec x y (x / y) lo i d hpos hd)
      sched (Nat.sqrt x) 0 (primePi (Nat.sqrt x - 1)) hsx hsched (fun _ => rfl)
    rw [heq] at hcov ⊢
    have hcov' : x / y ≤ low_f := hcov
    have hmf : min low_f (x / y) = x / y := by omega
    have hall : ∀ p, p ∈ primesBetween (y + 1) (Nat.sqrt x) → Nat.sqrt x ≤ x / p := by
      intro p hp
      obtain ⟨_, h2, hp'⟩ := mem_primesBetween.mp hp
      exact sqrt_le_div_of_window hp'.pos h2
    show 0 + ((windowPrimes x y (Nat.sqrt x) (min low_f (x / y))).map
        (fun p => primePi (x / p))).sum = _
    rw [hmf, windowPrimes_all x y (Nat.sqrt x) hy hall, Nat.zero_add]
  · intro hcov
    obtain ⟨low_f, pi_f, heq, hle⟩ := kernelRun_spec x y (x / y) (P2_thread x y (x / y))
      (fun d hd lo i hpos => P2_thread_spec x y (x / y) lo i d hpos hd)
      sched 2 0 0 (by omega) hsched (fun _ => by decide)
    rw [heq] at hcov ⊢
    have hcov' : x / y ≤ low_f := hcov
    have hmf : min low_f (x / y) = x / y := by omega
    have hall : ∀ p, p ∈ primesBetween (y + 1) (Nat.sqrt x) → 2 ≤ x / p := by
      intro p hp
      obtain ⟨_, h2, hp'⟩ := mem_primesBetween.mp hp
      exact two_le_div_of_window hp'.two_le h2
    show 0 + ((windowPrimes x y 2 (min low_f (x / y))).map
        (fun p => primePi (x / p))).sum = _
    rw [hmf, windowPrimes_all x y 2 hy hall, Nat.zero_add]

/-- Witness instantiating C4 at `x = 100`, `y = 3` with a two-thread
single-batch schedule. -/
theorem c4_witness :
    (∀ low i dist, 0 < dist → 0 < low + dist * i → low + dist * i < 100 / 3 →
      B_thread 100 3 (100 / 3) low i dist =
        (((windowPrimes 100 3 (low + dist * i)
              (min (low + dist * i + dist) (100 / 3))).map
            (fun p => primePi (100 / p) - primePi (low + dist * i - 1))).sum,
         primePi (min (low + dist * i + dist) (100 / 3) - 1) -
           primePi (low + dist * i - 1),
         (windowPrimes 100 3 (low + dist * i)
           (min (low + dist * i + dist) (100 / 3))).length)) ∧
    (∀ low i dist, 0 < dist → 0 < low + dist * i → low + dist * i < 100 / 3 →
      P2_thread 100 3 (100 / 3) low i dist =
        (((windowPrimes 100 3 (low + dist * i)
              (min (low + dist * i + dist) (100 / 3))).map
            (fun p => primePi (100 / p) - primePi (low + dist * i - 1))).sum,
         primePi (min (low + dist * i + dist) (100 / 3) - 1) -
           primePi (low + dist * i - 1),
         (windowPrimes 100 3 (low + dist * i)
           (min (low + dist * i + dist) (100 / 3))).length)) ∧
    (100 / 3 ≤ (kernelRun (100 / 3) (B_thread 100 3 (100 / 3)) [(16, 2)]
        (Nat.sqrt 100) 0 (primePi (Nat.sqrt 100 - 1))).1 →
      (kernelRun (100 / 3) (B_thread 100 3 (100 / 3)) [(16, 2)]
        (Nat.sqrt 100) 0 (primePi (Nat.sqrt 100 - 1))).2.1 =
        ((primesBetween (3 + 1) (Nat.sqrt 100)).map
          (fun p => primePi (100 / p))).sum) ∧
    (100 / 3 ≤ (kernelRun (100 / 3) (P2_thread 100 3 (100 / 3)) [(16, 2)] 2 0 0).1 →
      (kernelRun (100 / 3) (P2_thread 100 3 (100 / 3)) [(16, 2)] 2 0 0).2.1 =
        ((primesBetween (3 + 1) (Nat.sqrt 100)).map
          (fun p => primePi (100 / p))).sum) :=
  c4_thread_sums_and_sequential_fold 100 3 [(16, 2)] (by decide) (by decide)
    (by
      intro dT h
      rcases List.mem_singleton.mp h with rfl
      decide)

end ClaimC4

section ClaimC9

/-- **C9** (amended): `parseOption` raises `OptionError` — and
`parseOptions` propagates it — for every malformed argument shape: an
empty argument, a required-parameter option whose next word is missing,
empty or itself an option, a `--opt=N` or `--opt[N]` with an unknown
option name, a `--opt=` with empty value ONLY when `--opt` takes a
required parameter (a no-parameter `--opt=` such as `--time=` parses
fine, unlike the claim states), a token with no digit that is not an
option, and a leading `-` number; the message names the offending token,
except in the `--opt=N` error shapes where it names the option-name part
`--opt` of the token. -/
theorem c9_option_errors (fs : String → Bool) (argv : List String) (i : Nat)
    (opts : CmdOptions) (bg : String) (str : String)
    (hstr : argv.getD i "" = str) :
    (str.isEmpty = true →
      parseOption argv i = Except.error ("unrecognized option " ++ str)) ∧
    (∀ oid, str.isEmpty = false →
      optionMap str = some (oid, IsParam.required_param) →
      ((argv.getD (i + 1) "").isEmpty = true ∨
        isOption (argv.getD (i + 1) "") = true) →
      parseOption argv i = Except.error ("missing value for option " ++ str)) ∧
    (str.isEmpty = false → optionMap str = none → isOption str = true →
      str.toList.contains '=' = true →
      optionMap (String.mk (str.toList.takeWhile (fun c => c ≠ '='))) = none →
      parseOption argv i = Except.error ("unrecognized option " ++
        String.mk (str.toList.takeWhile (fun c => c ≠ '=')))) ∧
    (∀ oid, str.isEmpty = false → optionMap str = none → isOption str = true →
      str.toList.contains '=' = true →
      optionMap (String.mk (str.toList.takeWhile (fun c => c ≠ '='))) =
        some (oid, IsParam.required_param) →
      (String.mk (str.toList.drop
        ((str.toList.takeWhile (fun c => c ≠ '=')).length + 1))).isEmpty = true →
      parseOption argv i = Except.error ("missing value for option " ++
        String.mk (str.toList.takeWhile (fun c => c ≠ '=')))) ∧
    (str.isEmpty = false → optionMap str = none → isOption str = true →
      str.toList.contains '=' = false →
      optionMap (if (str.toList.drop
            ((str.toList.takeWhile (fun c => c.isDigit = false)).length)).isEmpty
          then str
          else String.mk (str.toList.takeWhile (fun c => c.isDigit = false))) =
        none →
      parseOption argv i = Except.error ("unrecognized option " ++ str)) ∧
    (str.isEmpty = false → optionMap str = none → isOption str = false →
      (str.toList.any (fun c => c.isDigit)) = false →
      parseOption argv i = Except.error ("unrecognized option " ++ str)) ∧
    (str.isEmpty = false → optionMap str = none → isOption str = false →
      (str.toList.any (fun c => c.isDigit)) = true →
      str.toList.headD ' ' = '-' →
      parseOption argv i = Except.error ("unrecognized option " ++ str)) ∧
    (∀ e, i < argv.length → parseOption argv i = Except.error e →
      parseOptionsLoop fs argv i opts bg = ParseOutcome.err e) ∧
    (∀ e, 1 < argv.length → parseOption argv 1 = Except.error e →
      parseOptions fs argv = ParseOutcome.err e) := by
  refine ⟨?_, ?_, ?_, ?_, ?_, ?_, ?_, ?_, ?_⟩
  · intro h
    unfold parseOption
    rw [hstr, if_pos h]
  · intro oid hne hmap hval
    unfold parseOption
    rw [hstr, if_neg (by rw [hne]; exact Bool.false_ne_true), hmap]
    show (if IsParam.required_param = IsParam.required_param then _ else _) = _
    rw [if_pos rfl]
    show (if ((argv.getD (i + 1) "").isEmpty || isOption (argv.getD (i + 1) "")) = true
        then _ else _) = _
    rw [if_pos (by
      rcases hval with h | h
      · rw [h]
        rfl
      · rw [h, Bool.or_true])]
  · intro hne hmap hopt hcont hmap2
    unfold parseOption
    rw [hstr, if_neg (by rw [hne]; exact Bool.false_ne_true), hmap]
    show (if isOption str = true then _ else _) = _
    rw [if_pos hopt, if_pos hcont]
    show (if (optionMap (String.mk (str.toList.takeWhile (fun c => c ≠ '=')))).isNone =
        true then _ else _) = _
    rw [if_pos (by rw [hmap2]; rfl)]
  · intro oid hne hmap hopt hcont hmap2 hval
    unfold parseOption
    rw [hstr, if_neg (by rw [hne]; exact Bool.false_ne_true), hmap]
    show (if isOption str = true then _ else _) = _
    rw [if_pos hopt, if_pos hcont]
    show (if (optionMap (String.mk (str.toList.takeWhile (fun c => c ≠ '=')))).isNone =
        true then _ else _) = _
    rw [if_neg (by rw [hmap2]; exact Bool.false_ne_true)]
    rw [if_pos ⟨hval, by rw [hmap2]; rfl⟩]
  · intro hne hmap hopt hcont hmap2
    unfold parseOption
    rw [hstr, if_neg (by rw [hne]; exact Bool.false_ne_true), hmap]
    show (if isOption str = true then _ else _) = _
    rw [if_pos hopt, if_neg (by rw [hcont]; exact Bool.false_ne_true)]
    show (if (optionMap (if (str.toList.drop
          ((str.toList.takeWhile (fun c => c.isDigit = false)).length)).isEmpty = true
        then str
        else String.mk (str.toList.takeWhile (fun c => c.isDigit = false)))).isNone =
        true then _ else _) = _
    rw [if_pos (by rw [hmap2]; rfl)]
  · intro hne hmap hopt hdig
    unfold parseOption
    rw [hstr, if_neg (by rw [hne]; exact Bool.false_ne_true), hmap]
    show (if isOption str = true then _ else _) = _
    rw [if_neg (by rw [hopt]; exact Bool.false_ne_true), if_pos hdig]
  · intro hne hmap hopt hdig hhead
    unfold parseOption
    rw [hstr, if_neg (by rw [hne]; exact Bool.false_ne_true), hmap]
    show (if isOption str = true then _ else _) = _
    rw [if_neg (by rw [hopt]; exact Bool.false_ne_true),
      if_neg (by rw [hdig]; exact fun hc => Bool.noConfusion hc), if_pos hhead]
  · intro e hlt herr
    rw [parseOptionsLoop, dif_pos hlt, herr]
  · intro e hlt herr
    unfold parseOptions
    rw [if_neg (by omega), parseOptionsLoop, dif_pos hlt, herr]

/-- **C9** counterexample to the claim as stated: `--time=` is a `--opt=`
with empty value, yet `parseOption` accepts it (returning the parsed
option with empty value) instead of raising an error, because the
empty-value check only fires for required-parameter options and `--time`
takes no parameter. -/
theorem c9_counterexample :
    isOption "--time=" = true ∧
    "--time=".toList.contains '=' = true ∧
    String.mk ("--time=".toList.takeWhile (fun c => c ≠ '=')) = "--time" ∧
    (String.mk ("--time=".toList.drop
      (("--time=".toList.takeWhile (fun c => c ≠ '=')).length + 1))).isEmpty = true ∧
    optionMap "--time" = some (OptionID.time, IsParam.no_param) ∧
    parseOption ["primecount", "--time="] 1 =
      Except.ok ({ str := "--time=", opt := "--time", val := "" }, 0) :=
  ⟨by decide, by decide, by decide, by decide, rfl, rfl⟩

/-- Witness instantiating the amended C9 on the malformed token `abc`
(not an option, no digit). -/
theorem c9_witness :
    parseOption ["primecount", "abc"] 1 =
      Except.error ("unrecognized option " ++ "abc") :=
  ((c9_option_errors (fun _ => false) ["primecount", "abc"] 1 {} "" "abc"
    rfl).2.2.2.2.2.1) (by decide) (by decide) (by decide) (by decide)

end ClaimC9

section ClaimC10

/-- **C10**: `P2_OpenMP` returns 0 without performing any sieving whenever
`x < 4`, and also whenever `pi(y) ≥ pi(isqrt(x))` (the summation range
`a < i ≤ b` is empty); under the same `x < 4` condition `B_OpenMP` also
returns 0. -/
theorem c10_early_returns (x y : Nat) (sched : List (Nat × Nat)) :
    (x < 4 → P2_OpenMP x y sched = 0 ∧ B_OpenMP x y sched = 0) ∧
    (pi_simple y ≥ pi_simple (Nat.sqrt x) → P2_OpenMP x y sched = 0) := by
  constructor
  · intro h
    constructor
    · unfold P2_OpenMP
      rw [if_pos h]
    · unfold B_OpenMP
      rw [if_pos h]
  · intro h
    unfold P2_OpenMP
    by_cases h4 : x < 4
    · rw [if_pos h4]
    · rw [if_neg h4]
      show (if pi_simple y ≥ pi_simple (Nat.sqrt x) then (0 : Int) else _) = 0
      rw [if_pos h]

/-- Witness for C10: both early returns at concrete inputs. -/
theorem c10_witness :
    (P2_OpenMP 2 5 [] = 0 ∧ B_OpenMP 2 5 [] = 0) ∧ P2_OpenMP 0 7 [] = 0 :=
  ⟨(c10_early_returns 2 5 []).1 (by decide),
   (c10_early_returns 0 7 []).2 (by
     rw [Nat.sqrt_zero]
     have h0 : pi_simple 0 = 0 := by
       rw [pi_simple, if_pos (by decide : (0 : Nat) < 2)]
     rw [h0]
     exact Nat.zero_le _)⟩

end ClaimC10

section ClaimC3

/-- A prime strictly above `q` pushes the prime count strictly up. -/
theorem primePi_lt_of_prime {q p : Nat} (hp : p.Prime) (hqp : q < p) :
    primePi q < primePi p := by
  unfold primePi
  apply Finset.card_lt_card
  constructor
  · exact Finset.filter_subset_filter _ (Finset.range_subset.mpr (by omega))
  · intro hsub
    have hmem : p ∈ (Finset.range (p + 1)).filter Nat.Prime := by
      simp [Finset.mem_filter, Finset.mem_range, hp]
    have := hsub hmem
    simp only [Finset.mem_filter, Finset.mem_range] at this
    omega

/-- For a prime `p`, `π(isqrt x) < π(p)` holds exactly when
`isqrt x < p`. -/
theorem primePi_sqrt_lt_iff {x p : Nat} (hp : p.Prime) :
    primePi (Nat.sqrt x) < primePi p ↔ Nat.sqrt x < p := by
  constructor
  · intro h
    by_contra hc
    push_neg at hc
    exact absurd (primePi_mono hc) (by omega)
  · exact primePi_lt_of_prime hp

/-- Legendre's identity for the survivor count: with `a = π(isqrt x)`, the
integers of `[1, x]` whose prime factors all exceed the `a`-th prime are
`1` and the primes of `(isqrt x, x]`. -/
theorem phi_spec_sqrt (x : Nat) (hx : 1 ≤ x) :
    phi_spec x (primePi (Nat.sqrt x)) =
      1 + (primePi x - primePi (Nat.sqrt x)) := by
  unfold phi_spec
  have hset : (Finset.Icc 1 x).filter
      (fun n => ∀ p, p ≤ n → p ∣ n → Nat.Prime p →
        primePi (Nat.sqrt x) < primePi p) =
      insert 1 ((Finset.Icc 1 x).filter
        (fun n => n.Prime ∧ Nat.sqrt x < n)) := by
    ext n
    simp only [Finset.mem_insert, Finset.mem_filter, Finset.mem_Icc]
    constructor
    · rintro ⟨⟨h1, h2⟩, hP⟩
      by_cases hn1 : n = 1
      · exact Or.inl hn1
      · refine Or.inr ⟨⟨h1, h2⟩, ?_, ?_⟩
        · by_contra hnp
          have hmf : n.minFac.Prime := Nat.minFac_prime hn1
          have hdvd : n.minFac ∣ n := Nat.minFac_dvd n
          have hsq : n.minFac ^ 2 ≤ n :=
            Nat.minFac_sq_le_self (by omega) hnp
          rw [pow_two] at hsq
          have hle : n.minFac ≤ n := Nat.le_of_dvd (by omega) hdvd
          have := (primePi_sqrt_lt_iff hmf).mp (hP n.minFac hle hdvd hmf)
          have hxlt := Nat.sqrt_lt'.mp this
          rw [pow_two] at hxlt
          omega
        · have hnp : n.Prime := by
            by_contra hnp
            have hmf : n.minFac.Prime := Nat.minFac_prime hn1
            have hdvd : n.minFac ∣ n := Nat.minFac_dvd n
            have hsq : n.minFac ^ 2 ≤ n :=
              Nat.minFac_sq_le_self (by omega) hnp
            rw [pow_two] at hsq
            have hle : n.minFac ≤ n := Nat.le_of_dvd (by omega) hdvd
            have := (primePi_sqrt_lt_iff hmf).mp (hP n.minFac hle hdvd hmf)
            have hxlt := Nat.sqrt_lt'.mp this
            rw [pow_two] at hxlt
            omega
          exact (primePi_sqrt_lt_iff hnp).mp (hP n (le_refl n) (dvd_refl n) hnp)
    · rintro (rfl | ⟨⟨h1, h2⟩, hnp, hgt⟩)
      · refine ⟨⟨le_refl 1, hx⟩, ?_⟩
        intro p hp hdvd hpr
        have := hpr.two_le
        omega
      · refine ⟨⟨h1, h2⟩, ?_⟩
        intro p hple hdvd hpr
        rcases (Nat.Prime.eq_one_or_self_of_dvd hnp p hdvd) with h | h
        · have := hpr.two_le
          omega
        · subst h
          exact (primePi_sqrt_lt_iff hpr).mpr hgt
  rw [hset, Finset.card_insert_of_not_mem (by
    simp only [Finset.mem_filter, Finset.mem_Icc]
    rintro ⟨_, hp, _⟩
    exact Nat.not_prime_one hp)]
  have hcard : ((Finset.Icc 1 x).filter (fun n => n.Prime ∧ Nat.sqrt x < n)).card =
      primePi x - primePi (Nat.sqrt x) := by
    have hsd : (Finset.Icc 1 x).filter (fun n => n.Prime ∧ Nat.sqrt x < n) =
        (Finset.range (x + 1)).filter Nat.Prime \
          (Finset.range (Nat.sqrt x + 1)).filter Nat.Prime := by
      ext n
      simp only [Finset.mem_filter, Finset.mem_Icc, Finset.mem_sdiff,
        Finset.mem_range]
      constructor
      · rintro ⟨⟨h1, h2⟩, hp, hgt⟩
        exact ⟨⟨by omega, hp⟩, fun hc => by omega⟩
      · rintro ⟨⟨h1, hp⟩, hnot⟩
        have h2 := hp.two_le
        refine ⟨⟨by omega, by omega⟩, hp, ?_⟩
        by_contra hc
        exact hnot ⟨by omega, hp⟩
    rw [hsd, Finset.card_sdiff
      (Finset.filter_subset_filter _ (Finset.range_subset.mpr
        (by have := Nat.sqrt_le_self x; omega)))]
    rfl
  rw [hcard]
  omega

/-- `pi_simple` is the prime-counting function: Legendre's formula
`π(x) = φ(x, a) + a - 1` with `a = π(isqrt x)`, by strong induction along
the `isqrt` recursion. -/
theorem pi_simple_eq_primePi (x : Nat) : pi_simple x = primePi x := by
  induction x using Nat.strong_induction_on with
  | _ x ih =>
    rw [pi_simple]
    by_cases h2 : x < 2
    · rw [if_pos h2]
      have : x = 0 ∨ x = 1 := by omega
      rcases this with rfl | rfl
      · decide
      · decide
    · rw [if_neg h2]
      have hsq : Nat.sqrt x < x := Nat.sqrt_lt_self (by omega)
      rw [ih (Nat.sqrt x) hsq]
      show phi_spec x (primePi (Nat.sqrt x)) + primePi (Nat.sqrt x) - 1 = primePi x
      rw [phi_spec_sqrt x (by omega)]
      have hmono : primePi (Nat.sqrt x) ≤ primePi x :=
        primePi_mono (Nat.sqrt_le_self x)
      omega

/-- `pi_legendre` is the prime-counting function. -/
theorem pi_legendre_eq_primePi (x : Nat) : pi_legendre x = primePi x := by
  unfold pi_legendre
  by_cases h2 : x < 2
  · rw [if_pos h2]
    have : x = 0 ∨ x = 1 := by omega
    rcases this with rfl | rfl
    · decide
    · decide
  · rw [if_neg h2]
    rw [pi_simple_eq_primePi]
    show phi_spec x (primePi (Nat.sqrt x)) + primePi (Nat.sqrt x) - 1 = primePi x
    rw [phi_spec_sqrt x (by omega)]
    have hmono : primePi (Nat.sqrt x) ≤ primePi x :=
      primePi_mono (Nat.sqrt_le_self x)
    omega

end ClaimC3

end Primecount
